import Mathlib

set_option maxHeartbeats 1000000
set_option maxRecDepth 10000

/-!
Shallow embedding of `src/alu.c`: a software arithmetic-logic unit over
fixed-width two's-complement words. A word is an ordered sequence of bits,
least significant bit first. The C code hardwires the width to 32 bits
(`wordsize` = 32, `wordtopbit` = 31, and several literal occurrences of
31/32 inside `cshWord`, `mulWord` and the comparators), so the embedding
fixes the width to 32 as well.

Bit-accessor collaborators (`getBitOfWord`, `setBitOfWord`, `setWord`,
`notBit`, `toBit` and the distinguished constants) are declared in `alu.h`,
which is not part of the sources; they are modelled from the spec (section 6).
Imperative buffer writes become functional updates; each C loop becomes
either an index-wise description of the buffer it completely overwrites, a
structural recursion over the bit lists, or an explicit fold over the list
of loop indices, as noted at each definition.
-/

/-- Number of bits in a word (`wordsize`). -/
def wordsize : Nat := 32

/-- Index of the most significant (sign) bit of a word (`wordtopbit`). -/
def wordtopbit : Nat := 31

/-- A word: fixed-length bit sequence, index 0 = least significant bit.
A `Bool` embeds the C `bit` type (`true` = 1, `false` = 0). -/
abbrev word := List Bool

/-- Modelled from the spec: `getBit(word, index) -> Bit`, valid for index in
[0, topIndex]; reads outside that range are the collaborator's contract
violation, modelled as reading 0. -/
def getBitOfWord (w : word) (i : Nat) : Bool := w.getD i false

/-- Modelled from the spec: `setBit(word, index, value)` overwrites one bit in
place; writes outside [0, topIndex] are the collaborator's contract
violation, modelled as no-ops. -/
def setBitOfWord (w : word) (i : Nat) (v : Bool) : word := w.set i v

/-- Variant of `getBitOfWord` taking the C `int` index used by `cshWord`,
whose index expressions can go negative. -/
def getBitOfWordI (w : word) (i : Int) : Bool :=
  if 0 ≤ i then getBitOfWord w i.toNat else false

/-- Variant of `setBitOfWord` taking the C `int` index used by `cshWord`. -/
def setBitOfWordI (w : word) (i : Int) (v : Bool) : word :=
  if 0 ≤ i then setBitOfWord w i.toNat v else w

/-- Modelled from the spec: `complementBit(b)` returns the opposite bit value
(`notBit` in alu.c). -/
def notBit (b : Bool) : Bool := !b

/-- Modelled from the spec: `narrowToBit(sum)` maps a 2-bit carry-inclusive
sum (0-3) to its low bit (`toBit` in alu.c). -/
def toBit (r : Nat) : Bool := r % 2 == 1

/-- Modelled from the spec: the distinguished zero word (all bits 0). -/
def zeroWord : word := List.replicate 32 false

/-- Modelled from the spec: the distinguished max-word (sign bit 0, all other
bits 1 - most positive value). -/
def maxWord : word := List.replicate 31 true ++ [false]

/-- Modelled from the spec: the distinguished min-word (sign bit 1, all other
bits 0 - most negative value). -/
def minWord : word := List.replicate 31 false ++ [true]

/-- The word holding value 1, as built inside `mulWord`:
`setWord(one, zeroWord); setBitOfWord(one, 0, 1);`. -/
def oneWord : word := setBitOfWord zeroWord 0 true

/-- C `testLtWord`: true iff the sign bit (literal index 31 in the source) is 1. -/
def testLtWord (op : word) : Bool := getBitOfWord op 31

/-- C `testEqWord`: loops b = 0..wordtopbit and returns false as soon as a bit
is nonzero. -/
def testEqWord (op : word) : Bool :=
  (List.range wordsize).all fun b => getBitOfWord op b == false

/-- C `testGeWord`: false iff the sign bit (literal index 31) is 1. -/
def testGeWord (op : word) : Bool := !(getBitOfWord op 31)

/-- C `ashWord`: arithmetic shift, with `c = abs(count)` clamped to
`wordsize - 1`. The loops write every result index exactly once, so the
result buffer is given index-wise, low bits first:
for `count < 0` the loop `result[b-c] = localop[b]` for b in [c, wordtopbit-1]
contributes `(op.drop c).take (wordtopbit - c)`, the loop
`result[wordtopbit-b] = sign` for b in [1, c] contributes
`List.replicate c sign`, and the final `result[wordtopbit] = sign` the last
element; for `count >= 0` the loop `result[b] = 0` for b in [0, c-1]
contributes `List.replicate c false`, the loop `result[b] = localop[b-c]` for
b in [c, wordtopbit-1] contributes `op.take (wordtopbit - c)`, and the final
sign write the last element. -/
def ashWord (op : word) (count : Int) : word :=
  let c0 := count.natAbs
  let c := if wordsize ≤ c0 then wordsize - 1 else c0
  let sign := getBitOfWord op wordtopbit
  if count < 0 then
    (op.drop c).take (wordtopbit - c) ++ List.replicate c sign ++ [sign]
  else
    List.replicate c false ++ op.take (wordtopbit - c) ++ [sign]

/-- C `lshWord`: logical shift, with `c = abs(count)` clamped to
`wordsize - 1`; same loop-to-list translation as `ashWord`:
for `count < 0`, `result[b-c] = localop[b]` for b in [c, wordtopbit] is
`op.drop c` and `result[wordtopbit-b] = 0` for b in [0, c-1] is
`List.replicate c false`; for `count >= 0`, `result[b] = 0` for b in [0,c-1]
then `result[b] = localop[b-c]` for b in [c, wordtopbit] is
`op.take (wordsize - c)`. -/
def lshWord (op : word) (count : Int) : word :=
  let c0 := count.natAbs
  let c := if wordsize ≤ c0 then wordsize - 1 else c0
  if count < 0 then
    op.drop c ++ List.replicate c false
  else
    List.replicate c false ++ op.take (wordsize - c)

/-- C `maskWord`: keep low (`count >= 0`) or high (`count < 0`) `c` bits,
with `c = abs(count)` clamped to `wordsize`. For `count < 0` the copy loop
`result[b] = op[b]` for b in (wordtopbit-c, wordtopbit] is
`op.drop (wordsize - c)` and the clear loop for b in [0, wordtopbit-c] is
the leading replicate; for `count >= 0` symmetric. -/
def maskWord (op : word) (count : Int) : word :=
  let c0 := count.natAbs
  let c := if wordsize < c0 then wordsize else c0
  if count < 0 then
    List.replicate (wordsize - c) false ++ op.drop (wordsize - c)
  else
    op.take c ++ List.replicate (wordsize - c) false

/-- Index sequence of a C loop `for (b = hi; b >= lo; b--)`: the descending
list hi, hi-1, ..., lo (empty when lo > hi). -/
def intsDown (hi lo : Int) : List Int :=
  (List.range (hi + 1 - lo).toNat).map fun k => hi - (k : Int)

/-- C `cshWord`: circular shift. Kept as a literal fold of `setBitOfWord`
writes over the loop index sequences, because the loops do not cover every
result index (stale `result` buffer contents survive) and their index
expressions (with the hardcoded 32-bit constants of the source) can leave
[0, wordtopbit]. `result` is the initial contents of the caller's result
buffer. Note the source never consults the sign of `count` (only
`abs(count)` is used), and the `c == 0 || c % 32 == 0` branch copies `op`
into `result` but does not return, falling through to the shifting code. -/
def cshWord (result : word) (op : word) (count : Int) : word :=
  let c0 : Int := count.natAbs
  let c := if c0 > 32 then c0 - 32 else c0
  let r := if c = 0 ∨ c % 32 = 0 then op else result
  let localop := op
  let wtb : Int := wordtopbit
  if c < (wordsize : Int) / 2 then
    let r := (intsDown wtb (wtb - c + 1)).foldl
      (fun r b => setBitOfWordI r (b % (32 - c)) (getBitOfWordI localop b)) r
    (intsDown (wtb - c) c).foldl
      (fun r p => setBitOfWordI r ((p % (32 - c)) + c) (getBitOfWordI localop p)) r
  else
    let r := (intsDown wtb (wtb - c + 1)).foldl
      (fun r b => setBitOfWordI r (b - (32 - c)) (getBitOfWordI localop b)) r
    (intsDown (wtb - c) 0).foldl
      (fun r p => setBitOfWordI r ((p % c) + c) (getBitOfWordI localop p)) r

/-- C `notWord`: `result[b] = notBit(op[b])` for b = 0..wordtopbit. -/
def notWord (op : word) : word := op.map notBit

/-- The ripple-carry loop shared by `addWord` and `subWord`, one recursive
step per loop iteration b = 0 upward: `r = op1[b] + x2 + carry` (0..3),
result bit `toBit r`, outgoing carry `r >> 1`. `f` produces the second
summand from op2's bit: `id` for `addWord`, `notBit` for `subWord`. -/
def rippleBits (f : Bool → Bool) : word → word → Bool → word
  | b1 :: t1, b2 :: t2, carry =>
    let r := (cond b1 1 0) + (cond (f b2) 1 0) + (cond carry 1 0)
    toBit r :: rippleBits f t1 t2 (r / 2 == 1)
  | _, _, _ => []

/-- C `addWord`: ripple-carry sum, initial carry 0. -/
def addWord (op1 op2 : word) : word := rippleBits id op1 op2 false

/-- C `subWord`: ripple-carry sum of op1 and the bitwise complement of op2,
initial carry 1. -/
def subWord (op1 op2 : word) : word := rippleBits notBit op1 op2 true

/-- C `negativeWord`: `subWord(result, zeroWord, op)`. -/
def negativeWord (op : word) : word := subWord zeroWord op

/-- The `while (testEqWord(localop2) == false)` loop of `mulWord`, with
explicit fuel; `mulWord` runs it with fuel `wordsize`, which suffices
(each iteration logically shifts `localop2` right by 1). -/
def mulLoop : Nat → word → word → word → word
  | 0, _, _, result => result
  | fuel + 1, localop1, localop2, result =>
    if testEqWord localop2 then result
    else
      let result := if getBitOfWord localop2 0 then addWord result localop1 else result
      mulLoop fuel (lshWord localop1 1) (lshWord localop2 (-1)) result

/-- C `mulWord`: shift-and-add multiplication on sign-corrected magnitudes.
The source converts a negative operand with `notWord` followed by adding
`one`, records `negativeProduct = msb1 ^ msb2` (literal bit index 31), and
negates the accumulated result at the end when `negativeProduct`. -/
def mulWord (op1 op2 : word) : word :=
  let localop1 := op1
  let localop2 := op2
  let result := zeroWord
  let one := oneWord
  let msb1 := getBitOfWord localop1 31
  let msb2 := getBitOfWord localop2 31
  let negativeProduct := Bool.xor msb1 msb2
  let localop1 := if msb1 then addWord (notWord localop1) one else localop1
  let localop2 := if msb2 then addWord (notWord localop2) one else localop2
  let result := mulLoop wordsize localop1 localop2 result
  if negativeProduct then addWord (notWord result) one else result

/-- The restoring-division loop of `div2Word`, one recursive step per loop
iteration; `divGo w1 w2 n s` runs the iterations b = n-1 down to 0 starting
from state `s` = (result, remainder). Each step: shift remainder left by 1,
bring down bit b of w1 into remainder bit 0, trial-subtract w2, and commit
(setting result bit b) exactly when the trial stays non-negative. -/
def divGo (w1 w2 : word) : Nat → word × word → word × word
  | 0, s => s
  | b + 1, s =>
    let remainder := setBitOfWord (lshWord s.2 1) 0 (getBitOfWord w1 b)
    let test := subWord remainder w2
    divGo w1 w2 b
      (if testGeWord test then (setBitOfWord s.1 b true, test) else (s.1, remainder))

/-- C `div2Word`: quotient and remainder. Divide-by-zero returns maxWord or
minWord (by the dividend's sign) with zero remainder; otherwise operands are
converted to non-negative form via `negativeWord`, the restoring loop runs
for b = wordtopbit down to 0, and the recorded signs are applied at the end. -/
def div2Word (op1 op2 : word) : word × word :=
  if testEqWord op2 then
    ((if testGeWord op1 then maxWord else minWord), zeroWord)
  else
    let w1 := if testLtWord op1 then negativeWord op1 else op1
    let w2 := if testLtWord op2 then negativeWord op2 else op2
    let resultNegative := Bool.xor (testLtWord op1) (testLtWord op2)
    let s := divGo w1 w2 wordsize (zeroWord, zeroWord)
    let result := if resultNegative then negativeWord s.1 else s.1
    let remainder := if testLtWord op1 then negativeWord s.2 else s.2
    (result, remainder)

/-- C `divWord`: thin wrapper over `div2Word` discarding the remainder. -/
def divWord (op1 op2 : word) : word := (div2Word op1 op2).1

/-- C `remainderWord`: thin wrapper over `div2Word` discarding the quotient. -/
def remainderWord (op1 op2 : word) : word := (div2Word op1 op2).2

/-- Unsigned value of a word: bit i carries weight 2^i. -/
def wordVal : word → Nat
  | [] => 0
  | b :: t => (cond b 1 0) + 2 * wordVal t

/-- Two's-complement signed value of a 32-bit word. -/
def toInt (w : word) : Int :=
  if getBitOfWord w 31 then (wordVal w : Int) - 2 ^ 32 else (wordVal w : Int)

/-- The length-32 word whose unsigned value is `n % 2^32` (helper for naming
concrete words in theorem statements). -/
def wordOfNat (n : Nat) : word := (List.range 32).map fun i => n.testBit i

/-! ### Valuation lemmas -/

theorem wordVal_cons (b : Bool) (t : word) :
    wordVal (b :: t) = (cond b 1 0) + 2 * wordVal t := rfl

theorem wordVal_lt (w : word) : wordVal w < 2 ^ w.length := by
  induction w with
  | nil => simp [wordVal]
  | cons b t ih =>
    cases b <;> simp only [wordVal, List.length_cons, pow_succ, cond] <;> omega

theorem wordVal_append (a b : word) :
    wordVal (a ++ b) = wordVal a + 2 ^ a.length * wordVal b := by
  induction a with
  | nil => simp [wordVal]
  | cons x t ih =>
    show wordVal (x :: (t ++ b)) = _
    rw [wordVal_cons, ih, wordVal_cons, List.length_cons, pow_succ]
    ring

theorem wordVal_replicate_false (n : Nat) : wordVal (List.replicate n false) = 0 := by
  induction n with
  | zero => rfl
  | succ k ih => simp [List.replicate_succ, wordVal, ih]

theorem wordVal_replicate_true (n : Nat) : wordVal (List.replicate n true) = 2 ^ n - 1 := by
  induction n with
  | zero => rfl
  | succ k ih =>
    have : 1 ≤ 2 ^ k := Nat.one_le_two_pow
    simp only [List.replicate_succ, wordVal, ih, cond, pow_succ]
    omega

theorem two_mul_mod_two_mul (b v m : Nat) (hb : b < 2) :
    (b + 2 * v) % (2 * m) = b + 2 * (v % m) := by
  rcases Nat.eq_zero_or_pos m with hm | hm
  · subst hm; simp
  · have hdm := Nat.div_add_mod v m
    have h1 : b + 2 * v = b + 2 * (v % m) + 2 * m * (v / m) := by
      calc b + 2 * v = b + 2 * (m * (v / m) + v % m) := by rw [hdm]
        _ = b + 2 * (v % m) + 2 * m * (v / m) := by ring
    rw [h1, Nat.add_mul_mod_self_left, Nat.mod_eq_of_lt]
    have := Nat.mod_lt v hm
    omega

theorem wordVal_take (w : word) : ∀ k : Nat, wordVal (w.take k) = wordVal w % 2 ^ k := by
  induction w with
  | nil => intro k; simp [wordVal]
  | cons b t ih =>
    intro k
    match k with
    | 0 => simp [wordVal, Nat.mod_one]
    | k + 1 =>
      have hb : cond b 1 0 < 2 := by cases b <;> simp
      simp only [List.take_succ_cons, wordVal, ih, pow_succ]
      rw [Nat.mul_comm (2 ^ k) 2, two_mul_mod_two_mul _ _ _ hb]

theorem wordVal_drop (w : word) : ∀ k : Nat, wordVal (w.drop k) = wordVal w / 2 ^ k := by
  induction w with
  | nil => intro k; simp [wordVal]
  | cons b t ih =>
    intro k
    match k with
    | 0 => simp [wordVal]
    | k + 1 =>
      have hb : cond b 1 0 < 2 := by cases b <;> simp
      simp only [List.drop_succ_cons, wordVal, ih, pow_succ]
      rw [Nat.mul_comm (2 ^ k) 2, ← Nat.div_div_eq_div_mul]
      congr 1
      omega

theorem wordVal_inj (a : word) :
    ∀ b : word, a.length = b.length → wordVal a = wordVal b → a = b := by
  induction a with
  | nil => intro b hl _; cases b <;> simp_all
  | cons x t ih =>
    intro b hl hv
    match b with
    | [] => simp at hl
    | y :: u =>
      simp only [List.length_cons, Nat.succ.injEq] at hl
      simp only [wordVal] at hv
      have hxy : x = y ∧ wordVal t = wordVal u := by
        cases x <;> cases y <;> simp at hv ⊢ <;> omega
      rw [hxy.1, ih u hl hxy.2]

theorem getBit_true_iff (w : word) :
    ∀ i : Nat, i < w.length → (getBitOfWord w i = true ↔ wordVal w / 2 ^ i % 2 = 1) := by
  induction w with
  | nil => intro i hi; simp at hi
  | cons b t ih =>
    intro i hi
    match i with
    | 0 =>
      simp only [getBitOfWord, List.getD_cons_zero, wordVal, pow_zero, Nat.div_one,
        Nat.add_mul_mod_self_left]
      cases b <;> simp
    | i + 1 =>
      have hb : cond b 1 0 < 2 := by cases b <;> simp
      have step : wordVal (b :: t) / 2 ^ (i + 1) = wordVal t / 2 ^ i := by
        simp only [wordVal, pow_succ]
        rw [Nat.mul_comm (2 ^ i) 2, ← Nat.div_div_eq_div_mul]
        congr 1
        omega
      simp only [List.length_cons] at hi
      simp only [getBitOfWord, List.getD_cons_succ, step]
      exact ih i (by omega)

theorem getBit31_iff (w : word) (h : w.length = 32) :
    getBitOfWord w 31 = true ↔ 2 ^ 31 ≤ wordVal w := by
  rw [getBit_true_iff w 31 (by omega)]
  have hlt : wordVal w < 2 ^ 32 := h ▸ wordVal_lt w
  constructor
  · intro hv
    by_contra hle
    have : wordVal w / 2 ^ 31 = 0 := Nat.div_eq_of_lt (by omega)
    omega
  · intro hge
    have h1 : 1 ≤ wordVal w / 2 ^ 31 := (Nat.le_div_iff_mul_le (by positivity)).2 (by omega)
    have h2 : wordVal w / 2 ^ 31 < 2 := by
      apply (Nat.div_lt_iff_lt_mul (by positivity)).2
      have he : (2 : Nat) ^ 32 = 2 * 2 ^ 31 := by norm_num
      omega
    omega

theorem getBit31_false_iff (w : word) (h : w.length = 32) :
    getBitOfWord w 31 = false ↔ wordVal w < 2 ^ 31 := by
  have := getBit31_iff w h
  constructor
  · intro hf
    by_contra hc
    have : getBitOfWord w 31 = true := this.2 (by omega)
    simp [hf] at this
  · intro hlt
    cases hb : getBitOfWord w 31
    · rfl
    · exact absurd (this.1 hb) (by omega)

theorem wordVal_zeroWord : wordVal zeroWord = 0 := by decide

theorem length_zeroWord : zeroWord.length = 32 := by decide

theorem testEq_iff (w : word) (h : w.length = 32) :
    testEqWord w = true ↔ wordVal w = 0 := by
  constructor
  · intro ht
    have hall : ∀ b, b < 32 → getBitOfWord w b = false := by
      intro b hb
      have h0 := List.all_eq_true.1 ht b (List.mem_range.2 (by simpa [wordsize] using hb))
      simpa using h0
    have hw : w = zeroWord := by
      apply List.ext_getElem (by simp [h, length_zeroWord])
      intro i h1 h2
      have hwi := hall i (by omega)
      rw [getBitOfWord, List.getD_eq_getElem?_getD, List.getElem?_eq_getElem h1] at hwi
      simp only [Option.getD_some] at hwi
      rw [hwi]
      symm
      simp only [zeroWord]
      exact List.getElem_replicate false (by simpa [zeroWord] using h2)
    rw [hw, wordVal_zeroWord]
  · intro hv
    have hw : w = zeroWord := by
      apply wordVal_inj w zeroWord (by rw [h, length_zeroWord])
      rw [hv, wordVal_zeroWord]
    rw [hw]
    decide

/-! ### Ripple-carry lemmas -/

theorem rippleBits_eq_map (f : Bool → Bool) :
    ∀ (a b : word) (c : Bool), rippleBits f a b c = rippleBits id a (b.map f) c := by
  intro a
  induction a with
  | nil => intro b c; cases b <;> rfl
  | cons x t ih =>
    intro b c
    cases b with
    | nil => rfl
    | cons y u =>
      simp only [rippleBits, List.map_cons, id]
      rw [ih]

theorem length_rippleBits (f : Bool → Bool) :
    ∀ (a b : word) (c : Bool), (rippleBits f a b c).length = min a.length b.length := by
  intro a
  induction a with
  | nil => intro b c; cases b <;> simp [rippleBits]
  | cons x t ih =>
    intro b c
    cases b with
    | nil => simp [rippleBits]
    | cons y u =>
      simp only [rippleBits, List.length_cons, ih]
      omega

theorem cond_toBit (r : Nat) : cond (toBit r) 1 0 = r % 2 := by
  unfold toBit
  rcases Nat.mod_two_eq_zero_or_one r with h | h <;> simp [h]

theorem cond_carry (r : Nat) (h : r ≤ 3) : cond (r / 2 == 1) 1 0 = r / 2 := by
  interval_cases r <;> simp

theorem ripple_step (r vt vu n : Nat) :
    (r + 2 * vt + 2 * vu) % 2 ^ (n + 1) = r % 2 + 2 * ((vt + vu + r / 2) % 2 ^ n) := by
  have h1 : r + 2 * vt + 2 * vu = r % 2 + 2 * (vt + vu + r / 2) := by omega
  rw [h1, pow_succ, Nat.mul_comm (2 ^ n) 2, two_mul_mod_two_mul _ _ _ (by omega)]

theorem wordVal_ripple_id (a : word) :
    ∀ (b : word), a.length = b.length → ∀ c : Bool,
      wordVal (rippleBits id a b c) =
        (wordVal a + wordVal b + cond c 1 0) % 2 ^ a.length := by
  induction a with
  | nil => intro b hb c; cases b <;> simp [rippleBits, wordVal, Nat.mod_one]
  | cons x t ih =>
    intro b hb c
    match b with
    | [] => simp at hb
    | y :: u =>
      have ht : t.length = u.length := by simpa using hb
      have hr : (cond x 1 0) + (cond y 1 0) + (cond c 1 0) ≤ 3 := by
        cases x <;> cases y <;> cases c <;> simp
      simp only [rippleBits, id, wordVal_cons, List.length_cons]
      rw [ih u ht, cond_toBit, cond_carry _ hr, ht]
      rw [show (cond x 1 0 + 2 * wordVal t + (cond y 1 0 + 2 * wordVal u) + cond c 1 0)
            = ((cond x 1 0 + cond y 1 0 + cond c 1 0) + 2 * wordVal t + 2 * wordVal u)
          from by ring]
      rw [ripple_step]

theorem wordVal_map_notBit (b : word) :
    wordVal (b.map notBit) = 2 ^ b.length - 1 - wordVal b := by
  induction b with
  | nil => simp [wordVal]
  | cons y u ih =>
    have hu := wordVal_lt u
    have hp : (2 : Nat) ^ (u.length + 1) = 2 * 2 ^ u.length := by
      rw [pow_succ]; ring
    cases y <;>
      simp only [List.map_cons, notBit, Bool.not_true, Bool.not_false, wordVal_cons, ih,
        List.length_cons, cond, hp] <;> omega

theorem wordVal_addWord (a b : word) (h : a.length = b.length) :
    wordVal (addWord a b) = (wordVal a + wordVal b) % 2 ^ a.length := by
  unfold addWord
  rw [wordVal_ripple_id a b h]
  simp

theorem wordVal_subWord (a b : word) (h : a.length = b.length) :
    wordVal (subWord a b) = (wordVal a + (2 ^ a.length - wordVal b)) % 2 ^ a.length := by
  unfold subWord
  rw [rippleBits_eq_map, wordVal_ripple_id a _ (by simp [h]), wordVal_map_notBit]
  have h1 := wordVal_lt b
  rw [h]
  congr 1
  simp only [cond]
  omega

theorem length_addWord (a b : word) :
    (addWord a b).length = min a.length b.length := length_rippleBits id a b false

theorem length_subWord (a b : word) :
    (subWord a b).length = min a.length b.length := by
  unfold subWord
  rw [length_rippleBits]

theorem length_negativeWord (op : word) (h : op.length = 32) :
    (negativeWord op).length = 32 := by
  unfold negativeWord
  rw [length_subWord, length_zeroWord, h]
  exact min_self 32

theorem wordVal_negativeWord (op : word) (h : op.length = 32) :
    wordVal (negativeWord op) = (2 ^ 32 - wordVal op) % 2 ^ 32 := by
  unfold negativeWord
  rw [wordVal_subWord zeroWord op (by rw [length_zeroWord, h]), wordVal_zeroWord,
    length_zeroWord]
  simp

/-! ### Signed interpretation -/

theorem toInt_bounds (w : word) (h : w.length = 32) :
    -(2 ^ 31) ≤ toInt w ∧ toInt w < 2 ^ 31 := by
  have hlt : wordVal w < 2 ^ 32 := h ▸ wordVal_lt w
  have n31 : (2 : Nat) ^ 31 = 2147483648 := by norm_num
  have n32 : (2 : Nat) ^ 32 = 4294967296 := by norm_num
  have k31 : (2 : Int) ^ 31 = 2147483648 := by norm_num
  rw [n32] at hlt
  unfold toInt
  cases hb : getBitOfWord w 31
  · have hv := (getBit31_false_iff w h).1 hb
    rw [n31] at hv
    simp only [hb, Bool.false_eq_true, if_false, k31]
    omega
  · have hv := (getBit31_iff w h).1 hb
    rw [n31] at hv
    simp only [hb, if_true, k31]
    have k32 : (2 : Int) ^ 32 = 4294967296 := by norm_num
    rw [k32]
    omega

theorem int_mod_modEq (a n : Int) : a % n ≡ a [ZMOD n] := by
  unfold Int.ModEq
  rw [Int.emod_emod_of_dvd a dvd_rfl]

theorem toInt_modEq (w : word) :
    toInt w ≡ (wordVal w : Int) [ZMOD 2 ^ 32] := by
  unfold toInt
  cases hb : getBitOfWord w 31
  · simp only [hb, Bool.false_eq_true, if_false]
    rfl
  · simp only [hb, if_true]
    show ((wordVal w : Int) - 2 ^ 32) % 2 ^ 32 = (wordVal w : Int) % 2 ^ 32
    rw [Int.sub_emod, Int.emod_self, sub_zero, Int.emod_emod_of_dvd _ dvd_rfl]

/-! ### Claims C3, C10, C8, C6 -/

/-- C3: for every word a, `div2Word(a, zero-word)` sets the quotient to
max-word when a is non-negative (sign bit 0) and to min-word when a is
negative (sign bit 1), and sets the remainder to the zero word; the function
is total, so no error is raised. -/
theorem div2Word_by_zero (a : word) :
    div2Word a zeroWord = ((if getBitOfWord a 31 then minWord else maxWord), zeroWord) := by
  unfold div2Word testGeWord
  have hz : testEqWord zeroWord = true := by decide
  rw [hz]
  cases hb : getBitOfWord a 31 <;> simp [hb]

/-- C10: two's-complement negation has a fixed point at min-word:
`negativeWord(minWord) = minWord`; likewise the magnitude-conversion step of
`mulWord` (`notWord` then add one) maps min-word to itself, which is still
negative (`testLtWord`). -/
theorem negativeWord_minWord_fixed :
    negativeWord minWord = minWord ∧ addWord (notWord minWord) oneWord = minWord ∧
      testLtWord minWord = true := by decide

/-- C8: for all 32-bit words a and b, `subWord(a, b) = addWord(a, negativeWord(b))`:
subtraction as ripple-carry sum of a and the complement of b with initial
carry 1 agrees with adding the two's-complement negation of b. -/
theorem subWord_eq_add_negativeWord (a b : word) (ha : a.length = 32) (hb : b.length = 32) :
    subWord a b = addWord a (negativeWord b) := by
  have hnb := length_negativeWord b hb
  apply wordVal_inj
  · rw [length_subWord, length_addWord, hnb, ha, hb]
  · rw [wordVal_subWord a b (by rw [ha, hb]), wordVal_addWord a _ (by rw [ha, hnb]),
      wordVal_negativeWord b hb, ha]
    exact (Nat.ModEq.add_left (wordVal a) (Nat.mod_modEq _ _)).symm

/-- C8 witness at a = 13, b = 6. -/
theorem subWord_eq_add_negativeWord_witness :
    subWord (wordOfNat 13) (wordOfNat 6) = addWord (wordOfNat 13) (negativeWord (wordOfNat 6)) :=
  subWord_eq_add_negativeWord (wordOfNat 13) (wordOfNat 6) (by decide) (by decide)

/-- C6: for all 32-bit words, the ripple-carry sum `addWord` satisfies
two's-complement wrap-around semantics: the signed value of the result is
congruent to the sum of the operands' signed values modulo 2^32, and lies in
the representable range; no overflow indication exists. -/
theorem addWord_wraps (op1 op2 : word) (h1 : op1.length = 32) (h2 : op2.length = 32) :
    toInt (addWord op1 op2) ≡ toInt op1 + toInt op2 [ZMOD 2 ^ 32] ∧
      -(2 ^ 31) ≤ toInt (addWord op1 op2) ∧ toInt (addWord op1 op2) < 2 ^ 31 := by
  have hl : (addWord op1 op2).length = 32 := by
    rw [length_addWord, h1, h2]
    exact min_self 32
  refine ⟨?_, toInt_bounds _ hl⟩
  calc toInt (addWord op1 op2)
      ≡ (wordVal (addWord op1 op2) : Int) [ZMOD 2 ^ 32] := toInt_modEq _
    _ = ((wordVal op1 + wordVal op2) % 2 ^ 32 : Int) := by
        rw [wordVal_addWord op1 op2 (by rw [h1, h2]), h1]
        push_cast
        rfl
    _ ≡ ((wordVal op1 : Int) + wordVal op2) [ZMOD 2 ^ 32] := by
        push_cast
        exact int_mod_modEq _ _
    _ ≡ toInt op1 + toInt op2 [ZMOD 2 ^ 32] :=
        Int.ModEq.add (toInt_modEq op1).symm (toInt_modEq op2).symm

/-- C6 witness at op1 = 2^31 - 1, op2 = 1 (an overflowing sum that wraps). -/
theorem addWord_wraps_witness :
    toInt (addWord (wordOfNat (2 ^ 31 - 1)) (wordOfNat 1))
        ≡ toInt (wordOfNat (2 ^ 31 - 1)) + toInt (wordOfNat 1) [ZMOD 2 ^ 32] ∧
      -(2 ^ 31) ≤ toInt (addWord (wordOfNat (2 ^ 31 - 1)) (wordOfNat 1)) ∧
        toInt (addWord (wordOfNat (2 ^ 31 - 1)) (wordOfNat 1)) < 2 ^ 31 :=
  addWord_wraps (wordOfNat (2 ^ 31 - 1)) (wordOfNat 1) (by decide) (by decide)

/-! ### Logical shift by one, and the multiplication loop -/

theorem lshWord_one_def (op : word) : lshWord op 1 = false :: op.take 31 := rfl

theorem lshWord_negOne_def (op : word) : lshWord op (-1) = op.drop 1 ++ [false] := rfl

theorem length_lshWord_one (op : word) (h : op.length = 32) :
    (lshWord op 1).length = 32 := by
  rw [lshWord_one_def]
  simp [h]

theorem length_lshWord_negOne (op : word) (h : op.length = 32) :
    (lshWord op (-1)).length = 32 := by
  rw [lshWord_negOne_def]
  simp [h]

theorem wordVal_lshWord_one (op : word) :
    wordVal (lshWord op 1) = 2 * wordVal op % 2 ^ 32 := by
  rw [lshWord_one_def, wordVal_cons, wordVal_take]
  have : (2 : Nat) ^ 32 = 2 * 2 ^ 31 := by norm_num
  rw [this, Nat.mul_mod_mul_left]
  simp

theorem wordVal_lshWord_negOne (op : word) :
    wordVal (lshWord op (-1)) = wordVal op / 2 := by
  rw [lshWord_negOne_def, wordVal_append, wordVal_drop]
  simp [wordVal]

theorem getBit0_iff (w : word) (h : 0 < w.length) :
    getBitOfWord w 0 = true ↔ wordVal w % 2 = 1 := by
  have := getBit_true_iff w 0 h
  simpa using this

theorem wordVal_magnitude (w : word) (h : w.length = 32) :
    wordVal (addWord (notWord w) oneWord) = (2 ^ 32 - wordVal w) % 2 ^ 32 := by
  have hn : (notWord w).length = 32 := by simp [notWord, h]
  have ho : oneWord.length = 32 := by decide
  have hv := wordVal_lt w
  rw [wordVal_addWord _ _ (by rw [hn, ho]), hn]
  have h1 : wordVal (notWord w) = 2 ^ 32 - 1 - wordVal w := by
    unfold notWord
    rw [wordVal_map_notBit, h]
  have h2 : wordVal oneWord = 1 := by decide
  rw [h1, h2, h] at *
  congr 1
  omega

theorem length_mulLoop : ∀ (fuel : Nat) (l1 l2 res : word),
    l1.length = 32 → res.length = 32 → (mulLoop fuel l1 l2 res).length = 32 := by
  intro fuel
  induction fuel with
  | zero => intro l1 l2 res h1 h3; simp [mulLoop, h3]
  | succ f ih =>
    intro l1 l2 res h1 h3
    by_cases he : testEqWord l2 = true
    · simp [mulLoop, he, h3]
    · have hstep : mulLoop (f + 1) l1 l2 res
          = mulLoop f (lshWord l1 1) (lshWord l2 (-1))
              (if getBitOfWord l2 0 then addWord res l1 else res) := by
        simp [mulLoop, he]
      rw [hstep]
      apply ih _ _ _ (length_lshWord_one l1 h1)
      cases getBitOfWord l2 0 <;> simp [length_addWord, h3, h1]

theorem mulLoop_spec : ∀ (fuel : Nat) (l1 l2 res : word),
    l1.length = 32 → l2.length = 32 → res.length = 32 →
    wordVal l2 < 2 ^ fuel →
    wordVal (mulLoop fuel l1 l2 res) = (wordVal res + wordVal l1 * wordVal l2) % 2 ^ 32 := by
  intro fuel
  induction fuel with
  | zero =>
    intro l1 l2 res h1 h2 h3 hv
    have hz : wordVal l2 = 0 := by simpa using hv
    have hres32 : wordVal res < 4294967296 := by
      have := h3 ▸ wordVal_lt res
      norm_num at this
      exact this
    simp [mulLoop, hz]
    omega
  | succ f ih =>
    intro l1 l2 res h1 h2 h3 hv
    by_cases he : testEqWord l2 = true
    · have hz : wordVal l2 = 0 := (testEq_iff l2 h2).1 he
      have hres32 : wordVal res < 4294967296 := by
        have := h3 ▸ wordVal_lt res
        norm_num at this
        exact this
      simp [mulLoop, he, hz]
      omega
    · have hstep : mulLoop (f + 1) l1 l2 res
          = mulLoop f (lshWord l1 1) (lshWord l2 (-1))
              (if getBitOfWord l2 0 then addWord res l1 else res) := by
        simp [mulLoop, he]
      have hres : wordVal (if getBitOfWord l2 0 then addWord res l1 else res)
          = (wordVal res + wordVal l2 % 2 * wordVal l1) % 2 ^ 32 := by
        cases hb : getBitOfWord l2 0
        · have hb0 : wordVal l2 % 2 = 0 := by
            rcases Nat.mod_two_eq_zero_or_one (wordVal l2) with h0 | h0
            · exact h0
            · exact absurd ((getBit0_iff l2 (by omega)).2 h0) (by simp [hb])
          have hres32 : wordVal res < 4294967296 := by
            have := h3 ▸ wordVal_lt res
            norm_num at this
            exact this
          simp [hb0]
          omega
        · have hb1 : wordVal l2 % 2 = 1 := (getBit0_iff l2 (by omega)).1 hb
          rw [if_pos rfl, wordVal_addWord res l1 (by rw [h3, h1]), h3, hb1]
          ring_nf
      have hlen : (if getBitOfWord l2 0 then addWord res l1 else res).length = 32 := by
        cases getBitOfWord l2 0 <;> simp [length_addWord, h3, h1]
      have hbound : wordVal (lshWord l2 (-1)) < 2 ^ f := by
        rw [wordVal_lshWord_negOne]
        have : (2 : Nat) ^ (f + 1) = 2 ^ f * 2 := by rw [pow_succ]
        omega
      rw [hstep, ih _ _ _ (length_lshWord_one l1 h1) (length_lshWord_negOne l2 h2) hlen hbound]
      rw [wordVal_lshWord_one, wordVal_lshWord_negOne]
      show _ % 2 ^ 32 = _ % 2 ^ 32
      calc (wordVal (if getBitOfWord l2 0 then addWord res l1 else res)
              + 2 * wordVal l1 % 2 ^ 32 * (wordVal l2 / 2)) % 2 ^ 32
          = ((wordVal res + wordVal l2 % 2 * wordVal l1) % 2 ^ 32
              + 2 * wordVal l1 % 2 ^ 32 * (wordVal l2 / 2)) % 2 ^ 32 := by rw [hres]
        _ = (wordVal res + wordVal l2 % 2 * wordVal l1
              + 2 * wordVal l1 * (wordVal l2 / 2)) % 2 ^ 32 :=
            Nat.ModEq.add (Nat.mod_modEq _ _) (Nat.ModEq.mul_right _ (Nat.mod_modEq _ _))
        _ = (wordVal res + wordVal l1 * wordVal l2) % 2 ^ 32 := by
            have hd : wordVal l2 % 2 + 2 * (wordVal l2 / 2) = wordVal l2 := by omega
            congr 1
            calc wordVal res + wordVal l2 % 2 * wordVal l1 + 2 * wordVal l1 * (wordVal l2 / 2)
                = wordVal res + wordVal l1 * (wordVal l2 % 2 + 2 * (wordVal l2 / 2)) := by ring
              _ = wordVal res + wordVal l1 * wordVal l2 := by rw [hd]

theorem int_modEq_to_nat_eq (a b : Nat) (ha : a < 2 ^ 32) (hb : b < 2 ^ 32)
    (h : (a : Int) ≡ (b : Int) [ZMOD 2 ^ 32]) : a = b := by
  unfold Int.ModEq at h
  rw [Int.emod_eq_of_lt (by positivity) (by exact_mod_cast ha),
    Int.emod_eq_of_lt (by positivity) (by exact_mod_cast hb)] at h
  exact_mod_cast h

theorem intNeg_modEq (v : Nat) (hv : v ≤ 2 ^ 32) :
    (((2 ^ 32 - v : Nat) % 2 ^ 32 : Nat) : Int) ≡ -(v : Int) [ZMOD 2 ^ 32] := by
  have h1 : ((2 ^ 32 - v : Nat) : Int) = 2 ^ 32 - (v : Int) := by
    have hv' : v ≤ 4294967296 := by norm_num at hv; exact hv
    norm_num
    omega
  calc (((2 ^ 32 - v : Nat) % 2 ^ 32 : Nat) : Int)
      = ((2 ^ 32 - v : Nat) : Int) % 2 ^ 32 := by push_cast; rfl
    _ ≡ ((2 ^ 32 - v : Nat) : Int) [ZMOD 2 ^ 32] := int_mod_modEq _ _
    _ = (2 ^ 32 : Int) - v := h1
    _ ≡ 0 - (v : Int) [ZMOD 2 ^ 32] :=
        Int.ModEq.sub_right _ (by unfold Int.ModEq; simp)
    _ = -(v : Int) := by ring

/-- Unfolding of `mulWord` with its let-chain flattened. -/
theorem mulWord_eq (x y : word) :
    mulWord x y =
      (let l1 := if getBitOfWord x 31 then addWord (notWord x) oneWord else x
       let l2 := if getBitOfWord y 31 then addWord (notWord y) oneWord else y
       let r := mulLoop wordsize l1 l2 zeroWord
       if Bool.xor (getBitOfWord x 31) (getBitOfWord y 31) then
         addWord (notWord r) oneWord
       else r) := rfl

theorem magIf_modEq (w : word) (h : w.length = 32) :
    ((wordVal (if getBitOfWord w 31 then addWord (notWord w) oneWord else w) : Nat) : Int)
        ≡ (cond (getBitOfWord w 31) (-1) 1) * (wordVal w : Int) [ZMOD 2 ^ 32] ∧
      (if getBitOfWord w 31 then addWord (notWord w) oneWord else w).length = 32 := by
  have ho : oneWord.length = 32 := by decide
  cases hb : getBitOfWord w 31
  · simp only [hb, Bool.false_eq_true, if_false, cond, one_mul]
    exact ⟨Int.ModEq.refl _, h⟩
  · constructor
    · simp only [hb, if_true, cond]
      rw [wordVal_magnitude w h]
      have hneg := intNeg_modEq (wordVal w) (le_of_lt (h ▸ wordVal_lt w))
      calc (((2 ^ 32 - wordVal w : Nat) % 2 ^ 32 : Nat) : Int)
          ≡ -(wordVal w : Int) [ZMOD 2 ^ 32] := hneg
        _ = -1 * (wordVal w : Int) := by ring
    · simp only [hb, if_true, length_addWord, notWord, List.length_map, h, ho, min_self]

theorem length_mulWord (x y : word) (hx : x.length = 32) (hy : y.length = 32) :
    (mulWord x y).length = 32 := by
  rw [mulWord_eq]
  have ho : oneWord.length = 32 := by decide
  obtain ⟨-, hl1⟩ := magIf_modEq x hx
  simp only []
  set l1 := (if getBitOfWord x 31 then addWord (notWord x) oneWord else x) with e1
  set l2 := (if getBitOfWord y 31 then addWord (notWord y) oneWord else y) with e2
  set r := mulLoop wordsize l1 l2 zeroWord with er
  have hr : r.length = 32 := length_mulLoop wordsize l1 l2 zeroWord hl1 length_zeroWord
  cases Bool.xor (getBitOfWord x 31) (getBitOfWord y 31)
  · simpa using hr
  · simp only [if_true]
    rw [length_addWord, ho]
    unfold notWord
    rw [List.length_map, hr]
    exact min_self 32

theorem wordVal_mulWord (x y : word) (hx : x.length = 32) (hy : y.length = 32) :
    wordVal (mulWord x y) = wordVal x * wordVal y % 2 ^ 32 := by
  rw [mulWord_eq]
  obtain ⟨hm1, hl1⟩ := magIf_modEq x hx
  obtain ⟨hm2, hl2⟩ := magIf_modEq y hy
  have ho : oneWord.length = 32 := by decide
  simp only []
  set l1 := (if getBitOfWord x 31 then addWord (notWord x) oneWord else x) with e1
  set l2 := (if getBitOfWord y 31 then addWord (notWord y) oneWord else y) with e2
  set r := mulLoop wordsize l1 l2 zeroWord with er
  have hrlen : r.length = 32 := length_mulLoop wordsize l1 l2 zeroWord hl1 length_zeroWord
  have hrval : wordVal r = wordVal l1 * wordVal l2 % 2 ^ 32 := by
    have hs := mulLoop_spec 32 l1 l2 zeroWord hl1 hl2 length_zeroWord (hl2 ▸ wordVal_lt l2)
    rw [er]
    show wordVal (mulLoop 32 l1 l2 zeroWord) = _
    rw [hs, wordVal_zeroWord, Nat.zero_add]
  have hrmod : (wordVal r : Int)
      ≡ (cond (getBitOfWord x 31) (-1) 1) * (cond (getBitOfWord y 31) (-1) 1)
          * ((wordVal x : Int) * wordVal y) [ZMOD 2 ^ 32] := by
    rw [hrval]
    calc ((wordVal l1 * wordVal l2 % 2 ^ 32 : Nat) : Int)
        = ((wordVal l1 * wordVal l2 : Nat) : Int) % 2 ^ 32 := by push_cast; rfl
      _ ≡ ((wordVal l1 : Int) * wordVal l2) [ZMOD 2 ^ 32] := by
          push_cast
          exact int_mod_modEq _ _
      _ ≡ ((cond (getBitOfWord x 31) (-1) 1) * (wordVal x : Int))
            * ((cond (getBitOfWord y 31) (-1) 1) * (wordVal y : Int)) [ZMOD 2 ^ 32] :=
          Int.ModEq.mul hm1 hm2
      _ = (cond (getBitOfWord x 31) (-1) 1) * (cond (getBitOfWord y 31) (-1) 1)
            * ((wordVal x : Int) * wordVal y) := by ring
  have hgoal : ∀ z : word, z.length = 32 →
      (wordVal z : Int) ≡ ((wordVal x : Int) * wordVal y) [ZMOD 2 ^ 32] →
      wordVal z = wordVal x * wordVal y % 2 ^ 32 := by
    intro z hz hmod
    apply int_modEq_to_nat_eq _ _ (hz ▸ wordVal_lt z) (Nat.mod_lt _ (by positivity))
    calc (wordVal z : Int) ≡ ((wordVal x : Int) * wordVal y) [ZMOD 2 ^ 32] := hmod
      _ ≡ ((wordVal x * wordVal y : Nat) : Int) [ZMOD 2 ^ 32] := by push_cast; rfl
      _ ≡ ((wordVal x * wordVal y % 2 ^ 32 : Nat) : Int) [ZMOD 2 ^ 32] := by
          refine Int.ModEq.symm ?_
          calc ((wordVal x * wordVal y % 2 ^ 32 : Nat) : Int)
              = ((wordVal x * wordVal y : Nat) : Int) % 2 ^ 32 := by push_cast; rfl
            _ ≡ ((wordVal x * wordVal y : Nat) : Int) [ZMOD 2 ^ 32] := int_mod_modEq _ _
  cases hxb : getBitOfWord x 31 <;> cases hyb : getBitOfWord y 31 <;>
    simp only [hxb, hyb, cond] at hrmod ⊢ <;>
    simp only [Bool.xor_false, Bool.xor_true, Bool.xor_self, Bool.not_false, Bool.not_true,
      if_true, if_false, Bool.false_eq_true, Bool.true_eq_false] <;>
    [skip; skip; skip; skip]
  · exact hgoal r hrlen (by simpa using hrmod)
  · apply hgoal _ (by simp [length_addWord, notWord, hrlen, ho])
    rw [wordVal_magnitude r hrlen]
    calc (((2 ^ 32 - wordVal r : Nat) % 2 ^ 32 : Nat) : Int)
        ≡ -(wordVal r : Int) [ZMOD 2 ^ 32] := intNeg_modEq _ (le_of_lt (hrlen ▸ wordVal_lt r))
      _ ≡ -(1 * -1 * ((wordVal x : Int) * wordVal y)) [ZMOD 2 ^ 32] := by
          exact Int.ModEq.neg (by simpa using hrmod)
      _ = ((wordVal x : Int) * wordVal y) := by ring
  · apply hgoal _ (by simp [length_addWord, notWord, hrlen, ho])
    rw [wordVal_magnitude r hrlen]
    calc (((2 ^ 32 - wordVal r : Nat) % 2 ^ 32 : Nat) : Int)
        ≡ -(wordVal r : Int) [ZMOD 2 ^ 32] := intNeg_modEq _ (le_of_lt (hrlen ▸ wordVal_lt r))
      _ ≡ -(-1 * 1 * ((wordVal x : Int) * wordVal y)) [ZMOD 2 ^ 32] := by
          exact Int.ModEq.neg (by simpa using hrmod)
      _ = ((wordVal x : Int) * wordVal y) := by ring
  · exact hgoal r hrlen (by simpa using hrmod)

theorem mulLoop_fuel_mono : ∀ (f g : Nat), f ≤ g → ∀ (l1 l2 res : word),
    l2.length = 32 → wordVal l2 < 2 ^ f → mulLoop g l1 l2 res = mulLoop f l1 l2 res := by
  intro f
  induction f with
  | zero =>
    intro g _ l1 l2 res hlen hv
    have hz : wordVal l2 = 0 := by simpa using hv
    have he : testEqWord l2 = true := (testEq_iff l2 hlen).2 hz
    cases g with
    | zero => rfl
    | succ g => simp [mulLoop, he]
  | succ f ih =>
    intro g hg l1 l2 res hlen hv
    match g, hg with
    | g + 1, hg =>
      by_cases he : testEqWord l2 = true
      · simp [mulLoop, he]
      · have h1 : ∀ n : Nat, mulLoop (n + 1) l1 l2 res
            = mulLoop n (lshWord l1 1) (lshWord l2 (-1))
                (if getBitOfWord l2 0 then addWord res l1 else res) := by
          intro n
          simp [mulLoop, he]
        have hb : wordVal (lshWord l2 (-1)) < 2 ^ f := by
          rw [wordVal_lshWord_negOne]
          have : (2 : Nat) ^ (f + 1) = 2 ^ f * 2 := by rw [pow_succ]
          omega
        rw [h1 g, h1 f,
          ih g (by omega) (lshWord l1 1) (lshWord l2 (-1)) _ (length_lshWord_negOne l2 hlen) hb]

theorem iterate_lsh_negOne (l2 : word) (h : l2.length = 32) :
    ∀ k : Nat, wordVal ((fun w => lshWord w (-1))^[k] l2) = wordVal l2 / 2 ^ k ∧
      ((fun w => lshWord w (-1))^[k] l2).length = 32 := by
  intro k
  induction k with
  | zero => exact ⟨by simp, h⟩
  | succ k ih =>
    rw [Function.iterate_succ_apply']
    refine ⟨?_, length_lshWord_negOne _ ih.2⟩
    rw [wordVal_lshWord_negOne, ih.1, Nat.div_div_eq_div_mul, pow_succ]

/-- C9: the shift-and-add loop of `mulWord` terminates within `wordsize`
steps: 32 logical right shifts by 1 drive any 32-bit word to the zero word
(the loop's `testEqWord` exit condition), and running the loop with any fuel
of at least 32 yields the same result as fuel 32 — so `mulWord`, which runs
it with fuel `wordsize`, always finishes within a number of iterations
bounded by the word length. -/
theorem mulLoop_terminates (l2 : word) (h : l2.length = 32) :
    testEqWord ((fun w => lshWord w (-1))^[32] l2) = true ∧
    ∀ (fuel : Nat) (l1 res : word), 32 ≤ fuel →
      mulLoop fuel l1 l2 res = mulLoop 32 l1 l2 res := by
  constructor
  · obtain ⟨hv, hlen⟩ := iterate_lsh_negOne l2 h 32
    apply (testEq_iff _ hlen).2
    rw [hv]
    exact Nat.div_eq_of_lt (h ▸ wordVal_lt l2)
  · intro fuel l1 res hf
    exact mulLoop_fuel_mono 32 fuel hf l1 l2 res h (h ▸ wordVal_lt l2)

/-- C9 witness at l2 = 5, fuel 40, l1 = 3. -/
theorem mulLoop_terminates_witness :
    testEqWord ((fun w => lshWord w (-1))^[32] (wordOfNat 5)) = true ∧
      mulLoop 40 (wordOfNat 3) (wordOfNat 5) zeroWord
        = mulLoop 32 (wordOfNat 3) (wordOfNat 5) zeroWord :=
  ⟨(mulLoop_terminates (wordOfNat 5) (by decide)).1,
   (mulLoop_terminates (wordOfNat 5) (by decide)).2 40 (wordOfNat 3) zeroWord (by norm_num)⟩

/-! ### Restoring-division loop -/

theorem wordVal_set_true (w : word) :
    ∀ b : Nat, b < w.length → getBitOfWord w b = false →
      wordVal (setBitOfWord w b true) = wordVal w + 2 ^ b := by
  induction w with
  | nil => intro b hb _; simp at hb
  | cons x t ih =>
    intro b hb hf
    match b with
    | 0 =>
      have hx : x = false := by simpa [getBitOfWord] using hf
      subst hx
      simp [setBitOfWord, wordVal]
      omega
    | b + 1 =>
      have hfb : getBitOfWord t b = false := by simpa [getBitOfWord] using hf
      have hbl : b < t.length := by simpa using hb
      show wordVal (x :: t.set b true) = _
      rw [wordVal_cons, wordVal_cons]
      have hih := ih b hbl hfb
      unfold setBitOfWord at hih
      rw [hih, pow_succ]
      ring

theorem bit_false_of_mod (res : word) (n : Nat) (hlen : n < res.length)
    (hmod : wordVal res % 2 ^ (n + 1) = 0) : getBitOfWord res n = false := by
  cases hb : getBitOfWord res n
  · rfl
  · exfalso
    have hp : 0 < 2 ^ n := Nat.two_pow_pos n
    have hv1 := (getBit_true_iff res n hlen).1 hb
    rw [Nat.mod_pow_succ, hv1, Nat.mul_one] at hmod
    omega

theorem testGe_iff (w : word) (h : w.length = 32) :
    testGeWord w = true ↔ wordVal w < 2 ^ 31 := by
  unfold testGeWord
  cases hb : getBitOfWord w 31 <;> simp
  · exact (getBit31_false_iff w h).1 hb
  · have := (getBit31_iff w h).1 hb
    omega

theorem divGo_spec (w1 w2 : word) (h1 : w1.length = 32) (h2 : w2.length = 32)
    (hB1 : 1 ≤ wordVal w2) (hB2 : wordVal w2 ≤ 2 ^ 31) :
    ∀ n : Nat, n ≤ 32 → ∀ res rem : word, res.length = 32 → rem.length = 32 →
      wordVal rem < wordVal w2 → wordVal res % 2 ^ n = 0 →
      wordVal (divGo w1 w2 n (res, rem)).1
          = wordVal res + (wordVal rem * 2 ^ n + wordVal w1 % 2 ^ n) / wordVal w2 ∧
      wordVal (divGo w1 w2 n (res, rem)).2
          = (wordVal rem * 2 ^ n + wordVal w1 % 2 ^ n) % wordVal w2 ∧
      (divGo w1 w2 n (res, rem)).1.length = 32 ∧
      (divGo w1 w2 n (res, rem)).2.length = 32 := by
  intro n
  induction n with
  | zero =>
    intro _ res rem hres hrem hlt hmod
    refine ⟨?_, ?_, hres, hrem⟩
    · show wordVal res = _
      rw [pow_zero, Nat.mod_one, mul_one, Nat.add_zero, Nat.div_eq_of_lt hlt]
      omega
    · show wordVal rem = _
      rw [pow_zero, Nat.mod_one, mul_one, Nat.add_zero, Nat.mod_eq_of_lt hlt]
  | succ n ih =>
    intro hn res rem hres hrem hlt hmod
    have hN : (2 : Nat) ^ 32 = 4294967296 := by norm_num
    have hN31 : (2 : Nat) ^ 31 = 2147483648 := by norm_num
    set B := wordVal w2 with hB
    have hstep : divGo w1 w2 (n + 1) (res, rem)
        = divGo w1 w2 n
            (if testGeWord (subWord (setBitOfWord (lshWord rem 1) 0 (getBitOfWord w1 n)) w2)
             then (setBitOfWord res n true,
                   subWord (setBitOfWord (lshWord rem 1) 0 (getBitOfWord w1 n)) w2)
             else (res, setBitOfWord (lshWord rem 1) 0 (getBitOfWord w1 n))) := rfl
    have hrem31 : wordVal rem < 2 ^ 31 := by omega
    have hrdef : setBitOfWord (lshWord rem 1) 0 (getBitOfWord w1 n)
        = getBitOfWord w1 n :: rem.take 31 := by
      rw [lshWord_one_def rem]
      rfl
    set r1 := setBitOfWord (lshWord rem 1) 0 (getBitOfWord w1 n) with er1
    have hcb : cond (getBitOfWord w1 n) 1 0 ≤ 1 := by
      cases getBitOfWord w1 n <;> simp
    have hcbit : cond (getBitOfWord w1 n) 1 0 = wordVal w1 / 2 ^ n % 2 := by
      cases hx : getBitOfWord w1 n
      · rcases Nat.mod_two_eq_zero_or_one (wordVal w1 / 2 ^ n) with h0 | h0
        · simp [h0]
        · exact absurd ((getBit_true_iff w1 n (by omega)).2 h0) (by simp [hx])
      · exact ((getBit_true_iff w1 n (by omega)).1 hx).symm
    have hrlen : r1.length = 32 := by
      rw [hrdef]
      simp [hrem]
    have hrval : wordVal r1 = 2 * wordVal rem + cond (getBitOfWord w1 n) 1 0 := by
      rw [hrdef, wordVal_cons, wordVal_take, Nat.mod_eq_of_lt hrem31]
      ring
    have hub : wordVal r1 ≤ 2 * B - 1 := by omega
    set test := subWord r1 w2 with etest
    have htestlen : test.length = 32 := by
      rw [etest, length_subWord, hrlen, h2]
      exact min_self 32
    have htestval : wordVal test = (wordVal r1 + (2 ^ 32 - B)) % 2 ^ 32 := by
      rw [etest, wordVal_subWord r1 w2 (by rw [hrlen, h2]), hrlen]
    have hLdec : wordVal w1 % 2 ^ (n + 1)
        = wordVal w1 % 2 ^ n + 2 ^ n * (cond (getBitOfWord w1 n) 1 0) := by
      rw [Nat.mod_pow_succ, hcbit]
    have hresmod : wordVal res % 2 ^ n = 0 := by
      have hd : 2 ^ n ∣ wordVal res :=
        dvd_trans (pow_dvd_pow 2 (Nat.le_succ n)) (Nat.dvd_of_mod_eq_zero hmod)
      exact Nat.mod_eq_zero_of_dvd hd
    by_cases hc : B ≤ wordVal r1
    · -- trial subtraction succeeds: commit quotient bit and new remainder
      have htv : wordVal test = wordVal r1 - B := by
        rw [htestval]
        omega
      have hge : testGeWord test = true := by
        apply (testGe_iff test htestlen).2
        omega
      have hresn : getBitOfWord res n = false := bit_false_of_mod res n (by omega) hmod
      have hresv : wordVal (setBitOfWord res n true) = wordVal res + 2 ^ n :=
        wordVal_set_true res n (by omega) hresn
      have hresl : (setBitOfWord res n true).length = 32 := by
        unfold setBitOfWord
        rw [List.length_set, hres]
      have hresm : wordVal (setBitOfWord res n true) % 2 ^ n = 0 := by
        rw [hresv, Nat.add_mod_right, hresmod]
      obtain ⟨q1, q2, q3, q4⟩ :=
        ih (by omega) (setBitOfWord res n true) test hresl htestlen (by omega) hresm
      have hNdecomp : wordVal rem * 2 ^ (n + 1) + wordVal w1 % 2 ^ (n + 1)
          = (wordVal test * 2 ^ n + wordVal w1 % 2 ^ n) + B * 2 ^ n := by
        rw [hLdec, pow_succ]
        have hrBt : wordVal r1 = B + wordVal test := by omega
        calc wordVal rem * (2 ^ n * 2)
              + (wordVal w1 % 2 ^ n + 2 ^ n * cond (getBitOfWord w1 n) 1 0)
            = (2 * wordVal rem + cond (getBitOfWord w1 n) 1 0) * 2 ^ n
                + wordVal w1 % 2 ^ n := by ring
          _ = wordVal r1 * 2 ^ n + wordVal w1 % 2 ^ n := by rw [← hrval]
          _ = (B + wordVal test) * 2 ^ n + wordVal w1 % 2 ^ n := by rw [← hrBt]
          _ = (wordVal test * 2 ^ n + wordVal w1 % 2 ^ n) + B * 2 ^ n := by ring
      rw [hstep, if_pos hge]
      refine ⟨?_, ?_, q3, q4⟩
      · rw [q1, hresv, hNdecomp, Nat.add_mul_div_left _ _ (by omega : 0 < B)]
        omega
      · rw [q2, hNdecomp, Nat.add_mul_mod_self_left]
    · -- trial subtraction fails: keep remainder, quotient bit stays 0
      have htv : wordVal test = wordVal r1 + (2 ^ 32 - B) := by
        rw [htestval]
        omega
      have hge : testGeWord test = false := by
        cases hx : testGeWord test
        · rfl
        · exfalso
          have := (testGe_iff test htestlen).1 hx
          omega
      obtain ⟨q1, q2, q3, q4⟩ :=
        ih (by omega) res r1 hres hrlen (by omega) hresmod
      have hNdecomp : wordVal rem * 2 ^ (n + 1) + wordVal w1 % 2 ^ (n + 1)
          = wordVal r1 * 2 ^ n + wordVal w1 % 2 ^ n := by
        rw [hLdec, pow_succ]
        calc wordVal rem * (2 ^ n * 2)
              + (wordVal w1 % 2 ^ n + 2 ^ n * cond (getBitOfWord w1 n) 1 0)
            = (2 * wordVal rem + cond (getBitOfWord w1 n) 1 0) * 2 ^ n
                + wordVal w1 % 2 ^ n := by ring
          _ = wordVal r1 * 2 ^ n + wordVal w1 % 2 ^ n := by rw [← hrval]
      rw [hstep, if_neg (by simp [hge])]
      exact ⟨by rw [q1, hNdecomp], by rw [q2, hNdecomp], q3, q4⟩

theorem magnitude_facts (op : word) (h : op.length = 32) :
    (if testLtWord op then negativeWord op else op).length = 32 ∧
    wordVal (if testLtWord op then negativeWord op else op)
        = (if testLtWord op then 2 ^ 32 - wordVal op else wordVal op) ∧
    wordVal (if testLtWord op then negativeWord op else op) ≤ 2 ^ 31 := by
  have hlt := h ▸ wordVal_lt op
  cases ht : testLtWord op
  · simp only [Bool.false_eq_true, if_false]
    have hv : wordVal op < 2 ^ 31 := (getBit31_false_iff op h).1 ht
    exact ⟨h, by simp, by omega⟩
  · simp only [if_true]
    have hv : 2 ^ 31 ≤ wordVal op := (getBit31_iff op h).1 ht
    have hmod : wordVal (negativeWord op) = 2 ^ 32 - wordVal op := by
      rw [wordVal_negativeWord op h, Nat.mod_eq_of_lt (by omega)]
    exact ⟨length_negativeWord op h, hmod, by rw [hmod]; omega⟩

/-- Unfolding of the non-zero-divisor branch of `div2Word`. -/
theorem div2Word_eq (op1 op2 : word) (hne : testEqWord op2 = false) :
    div2Word op1 op2 =
      ((if Bool.xor (testLtWord op1) (testLtWord op2) then
          negativeWord (divGo (if testLtWord op1 then negativeWord op1 else op1)
            (if testLtWord op2 then negativeWord op2 else op2) wordsize
            (zeroWord, zeroWord)).1
        else (divGo (if testLtWord op1 then negativeWord op1 else op1)
            (if testLtWord op2 then negativeWord op2 else op2) wordsize
            (zeroWord, zeroWord)).1),
       (if testLtWord op1 then
          negativeWord (divGo (if testLtWord op1 then negativeWord op1 else op1)
            (if testLtWord op2 then negativeWord op2 else op2) wordsize
            (zeroWord, zeroWord)).2
        else (divGo (if testLtWord op1 then negativeWord op1 else op1)
            (if testLtWord op2 then negativeWord op2 else op2) wordsize
            (zeroWord, zeroWord)).2)) := by
  unfold div2Word
  rw [if_neg (by simp [hne])]

theorem div2Word_val (a b : word) (ha : a.length = 32) (hb : b.length = 32)
    (hbz : testEqWord b = false) :
    wordVal (div2Word a b).1
        = (if Bool.xor (testLtWord a) (testLtWord b) then
            (2 ^ 32 - wordVal (if testLtWord a then negativeWord a else a)
                / wordVal (if testLtWord b then negativeWord b else b)) % 2 ^ 32
          else wordVal (if testLtWord a then negativeWord a else a)
                / wordVal (if testLtWord b then negativeWord b else b)) ∧
    wordVal (div2Word a b).2
        = (if testLtWord a then
            (2 ^ 32 - wordVal (if testLtWord a then negativeWord a else a)
                % wordVal (if testLtWord b then negativeWord b else b)) % 2 ^ 32
          else wordVal (if testLtWord a then negativeWord a else a)
                % wordVal (if testLtWord b then negativeWord b else b)) ∧
    (div2Word a b).1.length = 32 ∧ (div2Word a b).2.length = 32 := by
  obtain ⟨hw1l, hw1v, hw1b⟩ := magnitude_facts a ha
  obtain ⟨hw2l, hw2v, hw2b⟩ := magnitude_facts b hb
  set w1 := (if testLtWord a then negativeWord a else a) with ew1
  set w2 := (if testLtWord b then negativeWord b else b) with ew2
  have hvb : wordVal b ≠ 0 := by
    intro h0
    rw [(testEq_iff b hb).2 h0] at hbz
    exact absurd hbz (by simp)
  have hbig := hb ▸ wordVal_lt b
  have hB1 : 1 ≤ wordVal w2 := by
    rw [hw2v]
    cases testLtWord b <;> simp <;> omega
  have hzlt : wordVal zeroWord < wordVal w2 := by
    rw [wordVal_zeroWord]
    omega
  have hzmod : wordVal zeroWord % 2 ^ 32 = 0 := by
    rw [wordVal_zeroWord]
    exact Nat.zero_mod _
  obtain ⟨g1, g2, g3, g4⟩ := divGo_spec w1 w2 hw1l hw2l hB1 hw2b 32 (le_refl 32)
    zeroWord zeroWord length_zeroWord length_zeroWord hzlt hzmod
  have hw1lt : wordVal w1 < 2 ^ 32 := hw1l ▸ wordVal_lt w1
  have hsimp1 : wordVal (divGo w1 w2 wordsize (zeroWord, zeroWord)).1
      = wordVal w1 / wordVal w2 := by
    show wordVal (divGo w1 w2 32 (zeroWord, zeroWord)).1 = _
    rw [g1, wordVal_zeroWord, Nat.mod_eq_of_lt hw1lt]
    simp
  have hsimp2 : wordVal (divGo w1 w2 wordsize (zeroWord, zeroWord)).2
      = wordVal w1 % wordVal w2 := by
    show wordVal (divGo w1 w2 32 (zeroWord, zeroWord)).2 = _
    rw [g2, wordVal_zeroWord, Nat.mod_eq_of_lt hw1lt]
    simp
  have hl1 : (divGo w1 w2 wordsize (zeroWord, zeroWord)).1.length = 32 := g3
  have hl2 : (divGo w1 w2 wordsize (zeroWord, zeroWord)).2.length = 32 := g4
  rw [div2Word_eq a b hbz, ← ew1, ← ew2]
  refine ⟨?_, ?_, ?_, ?_⟩
  · cases hx : Bool.xor (testLtWord a) (testLtWord b)
    · simp only [Bool.false_eq_true, if_false]
      exact hsimp1
    · simp only [if_true]
      rw [wordVal_negativeWord _ hl1, hsimp1]
  · cases hx : testLtWord a
    · simp only [Bool.false_eq_true, if_false]
      exact hsimp2
    · simp only [if_true]
      rw [wordVal_negativeWord _ hl2, hsimp2]
  · cases hx : Bool.xor (testLtWord a) (testLtWord b)
    · simpa using hl1
    · simp only [if_true]
      exact length_negativeWord _ hl1
  · cases hx : testLtWord a
    · simpa using hl2
    · simp only [if_true]
      exact length_negativeWord _ hl2

theorem int_two_pow_sub_modEq (x : Int) : (2 ^ 32 : Int) - x ≡ -x [ZMOD 2 ^ 32] := by
  calc (2 ^ 32 : Int) - x
      ≡ 0 - x [ZMOD 2 ^ 32] := Int.ModEq.sub_right _ (by unfold Int.ModEq; simp)
    _ = -x := by ring

/-- C1 (amended): for every 32-bit word a and non-zero b,
`mulWord(div2Word(a,b).quotient, b) + div2Word(a,b).remainder = a` exactly,
with all arithmetic wrapping to 32 bits; the quotient's sign bit equals the
XOR of the operands' sign bits provided the quotient is not the zero word
and (a, b) is not the overflowing pair (min-word, all-ones = -1); and the
remainder's sign bit equals a's sign bit provided the remainder is not the
zero word. -/
theorem div2Word_reconstruction (a b : word) (ha : a.length = 32) (hb : b.length = 32)
    (hbz : testEqWord b = false) :
    addWord (mulWord (div2Word a b).1 b) (div2Word a b).2 = a ∧
    ((div2Word a b).1 ≠ zeroWord → ¬(a = minWord ∧ b = notWord zeroWord) →
      getBitOfWord (div2Word a b).1 31
        = Bool.xor (getBitOfWord a 31) (getBitOfWord b 31)) ∧
    ((div2Word a b).2 ≠ zeroWord →
      getBitOfWord (div2Word a b).2 31 = getBitOfWord a 31) := by
  obtain ⟨hw1l, hw1v, hw1b⟩ := magnitude_facts a ha
  obtain ⟨hw2l, hw2v, hw2b⟩ := magnitude_facts b hb
  set w1 := (if testLtWord a then negativeWord a else a) with ew1
  set w2 := (if testLtWord b then negativeWord b else b) with ew2
  obtain ⟨hQv, hRv, hQl, hRl⟩ := div2Word_val a b ha hb hbz
  set Q := (div2Word a b).1 with eQ
  set R := (div2Word a b).2 with eR
  set A := wordVal w1 with eA
  set B := wordVal w2 with eB
  clear_value w1 w2 Q R A B
  have hN : (2 : Nat) ^ 32 = 4294967296 := by norm_num
  have hN31 : (2 : Nat) ^ 31 = 2147483648 := by norm_num
  have hvb : wordVal b ≠ 0 := by
    intro h0
    rw [(testEq_iff b hb).2 h0] at hbz
    exact absurd hbz (by simp)
  have hvblt : wordVal b < 2 ^ 32 := hb ▸ wordVal_lt b
  have hvalt : wordVal a < 2 ^ 32 := ha ▸ wordVal_lt a
  have hB1 : 1 ≤ B := by
    rw [hw2v]
    cases testLtWord b <;> simp <;> omega
  have hq : A / B ≤ 2 ^ 31 := le_trans (Nat.div_le_self A B) hw1b
  have hr : A % B < B := Nat.mod_lt _ (by omega)
  have haint : (wordVal a : Int) ≡ (cond (testLtWord a) (-1) 1) * (A : Int) [ZMOD 2 ^ 32] := by
    cases hx : testLtWord a
    · have hAa : A = wordVal a := by rw [hw1v, if_neg (by simp [hx])]
      rw [hAa]
      simp only [cond, one_mul]
      rfl
    · have hAa : A = 2 ^ 32 - wordVal a := by rw [hw1v, if_pos hx]
      have hva : (wordVal a : Int) = 2 ^ 32 - (A : Int) := by
        rw [hAa]
        have h1 : ((2 ^ 32 - wordVal a : Nat) : Int) = 2 ^ 32 - (wordVal a : Int) := by omega
        rw [h1]
        ring
      rw [hva]
      simp only [cond]
      calc (2 ^ 32 : Int) - A ≡ -(A : Int) [ZMOD 2 ^ 32] := int_two_pow_sub_modEq _
        _ = -1 * (A : Int) := by ring
  have hbint : (wordVal b : Int) ≡ (cond (testLtWord b) (-1) 1) * (B : Int) [ZMOD 2 ^ 32] := by
    cases hx : testLtWord b
    · have hBb : B = wordVal b := by rw [hw2v, if_neg (by simp [hx])]
      rw [hBb]
      simp only [cond, one_mul]
      rfl
    · have hBb : B = 2 ^ 32 - wordVal b := by rw [hw2v, if_pos hx]
      have hvbi : (wordVal b : Int) = 2 ^ 32 - (B : Int) := by
        rw [hBb]
        have h1 : ((2 ^ 32 - wordVal b : Nat) : Int) = 2 ^ 32 - (wordVal b : Int) := by omega
        rw [h1]
        ring
      rw [hvbi]
      simp only [cond]
      calc (2 ^ 32 : Int) - B ≡ -(B : Int) [ZMOD 2 ^ 32] := int_two_pow_sub_modEq _
        _ = -1 * (B : Int) := by ring
  have hQint : (wordVal Q : Int)
      ≡ (cond (Bool.xor (testLtWord a) (testLtWord b)) (-1) 1) * ((A / B : Nat) : Int)
        [ZMOD 2 ^ 32] := by
    cases hx : Bool.xor (testLtWord a) (testLtWord b)
    · rw [hQv, if_neg (by simp [hx])]
      simp only [cond, one_mul]
      rfl
    · rw [hQv, if_pos hx]
      simp only [cond]
      calc (((2 ^ 32 - A / B : Nat) % 2 ^ 32 : Nat) : Int)
          ≡ -((A / B : Nat) : Int) [ZMOD 2 ^ 32] := intNeg_modEq _ (by omega)
        _ = -1 * ((A / B : Nat) : Int) := by ring
  have hRint : (wordVal R : Int)
      ≡ (cond (testLtWord a) (-1) 1) * ((A % B : Nat) : Int) [ZMOD 2 ^ 32] := by
    cases hx : testLtWord a
    · rw [hRv, if_neg (by simp [hx])]
      simp only [cond, one_mul]
      rfl
    · rw [hRv, if_pos hx]
      simp only [cond]
      calc (((2 ^ 32 - A % B : Nat) % 2 ^ 32 : Nat) : Int)
          ≡ -((A % B : Nat) : Int) [ZMOD 2 ^ 32] := intNeg_modEq _ (by omega)
        _ = -1 * ((A % B : Nat) : Int) := by ring
  refine ⟨?_, ?_, ?_⟩
  · -- the wrap-around reconstruction identity
    have hMl : (mulWord Q b).length = 32 := length_mulWord Q b hQl hb
    refine wordVal_inj _ a ?_ ?_
    · rw [length_addWord, hMl, hRl, ha]
      exact min_self 32
    · rw [wordVal_addWord _ _ (by rw [hMl, hRl]), hMl, wordVal_mulWord Q b hQl hb]
      apply int_modEq_to_nat_eq _ _ (Nat.mod_lt _ (by positivity)) hvalt
      have hcc : (cond (Bool.xor (testLtWord a) (testLtWord b)) (-1 : Int) 1)
          * (cond (testLtWord b) (-1) 1) = cond (testLtWord a) (-1) 1 := by
        cases testLtWord a <;> cases testLtWord b <;> norm_num
      have hda : (B : Int) * ((A / B : Nat) : Int) + ((A % B : Nat) : Int) = (A : Int) := by
        exact_mod_cast congrArg (Nat.cast : Nat → Int) (Nat.div_add_mod A B)
      calc (((wordVal Q * wordVal b % 2 ^ 32 + wordVal R) % 2 ^ 32 : Nat) : Int)
          = ((wordVal Q * wordVal b % 2 ^ 32 + wordVal R : Nat) : Int) % 2 ^ 32 := by
            push_cast
            rfl
        _ ≡ ((wordVal Q * wordVal b % 2 ^ 32 + wordVal R : Nat) : Int) [ZMOD 2 ^ 32] :=
            int_mod_modEq _ _
        _ = ((wordVal Q * wordVal b % 2 ^ 32 : Nat) : Int) + (wordVal R : Int) := by
            push_cast
            ring
        _ ≡ (wordVal Q : Int) * (wordVal b : Int) + (wordVal R : Int) [ZMOD 2 ^ 32] := by
            apply Int.ModEq.add_right
            calc ((wordVal Q * wordVal b % 2 ^ 32 : Nat) : Int)
                = ((wordVal Q * wordVal b : Nat) : Int) % 2 ^ 32 := by push_cast; rfl
              _ ≡ ((wordVal Q * wordVal b : Nat) : Int) [ZMOD 2 ^ 32] := int_mod_modEq _ _
              _ = (wordVal Q : Int) * (wordVal b : Int) := by push_cast; ring
        _ ≡ ((cond (Bool.xor (testLtWord a) (testLtWord b)) (-1 : Int) 1)
                * ((A / B : Nat) : Int))
              * ((cond (testLtWord b) (-1 : Int) 1) * (B : Int))
              + (cond (testLtWord a) (-1 : Int) 1) * ((A % B : Nat) : Int) [ZMOD 2 ^ 32] :=
            Int.ModEq.add (Int.ModEq.mul hQint hbint) hRint
        _ = (cond (testLtWord a) (-1 : Int) 1)
              * ((B : Int) * ((A / B : Nat) : Int) + ((A % B : Nat) : Int)) := by
            rw [← hcc]
            ring
        _ = (cond (testLtWord a) (-1 : Int) 1) * (A : Int) := by rw [hda]
        _ ≡ (wordVal a : Int) [ZMOD 2 ^ 32] := haint.symm
  · -- quotient sign bit
    intro hQz hexc
    have hQzv : wordVal Q ≠ 0 := by
      intro h0
      exact hQz (wordVal_inj Q zeroWord (by rw [hQl, length_zeroWord])
        (by rw [h0, wordVal_zeroWord]))
    show getBitOfWord Q 31 = Bool.xor (getBitOfWord a 31) (getBitOfWord b 31)
    have hta : getBitOfWord a 31 = testLtWord a := rfl
    have htb : getBitOfWord b 31 = testLtWord b := rfl
    rw [hta, htb]
    cases hx : Bool.xor (testLtWord a) (testLtWord b)
    · have hQv1 : wordVal Q = A / B := by rw [hQv, if_neg (by simp [hx])]
      have hne : A / B ≠ 2 ^ 31 := by
        intro he
        have hBA : 2 ^ 31 * B ≤ A := by
          calc 2 ^ 31 * B = (A / B) * B := by rw [he]
            _ ≤ A := Nat.div_mul_le_self A B
        have hBone : B = 1 := by
          rw [hN31] at hBA he
          rw [hN31] at hw1b
          omega
        have hA31 : A = 2 ^ 31 := by
          rw [hBone, Nat.div_one] at he
          exact he
        cases hsa : testLtWord a <;> cases hsb : testLtWord b <;>
          rw [hsa, hsb] at hx <;> try simp at hx
        · -- both non-negative: A = wordVal a < 2^31, contradiction
          have hAa : A = wordVal a := by rw [hw1v, if_neg (by simp [hsa])]
          have : wordVal a < 2 ^ 31 := (getBit31_false_iff a ha).1 hsa
          omega
        · -- both negative: forces a = minWord, b = all-ones
          have hAa : A = 2 ^ 32 - wordVal a := by rw [hw1v, if_pos hsa]
          have hBb : B = 2 ^ 32 - wordVal b := by rw [hw2v, if_pos hsb]
          have hva : wordVal a = 2 ^ 31 := by omega
          have hvbv : wordVal b = 2 ^ 32 - 1 := by omega
          have ham : a = minWord :=
            wordVal_inj a minWord (by rw [ha]; decide) (by rw [hva]; decide)
          have hbm : b = notWord zeroWord :=
            wordVal_inj b (notWord zeroWord) (by rw [hb]; decide) (by rw [hvbv]; decide)
          exact hexc ⟨ham, hbm⟩
      have hlt31 : wordVal Q < 2 ^ 31 := by omega
      exact (getBit31_false_iff Q hQl).2 hlt31
    · have hQv1 : wordVal Q = (2 ^ 32 - A / B) % 2 ^ 32 := by rw [hQv, if_pos hx]
      have hqne : A / B ≠ 0 := by
        intro h0
        apply hQzv
        rw [hQv1, h0]
        omega
      have hge : 2 ^ 31 ≤ wordVal Q := by
        rw [hQv1]
        generalize hqq : A / B = q at hq hqne
        omega
      exact (getBit31_iff Q hQl).2 hge
  · -- remainder sign bit
    intro hRz
    have hRzv : wordVal R ≠ 0 := by
      intro h0
      exact hRz (wordVal_inj R zeroWord (by rw [hRl, length_zeroWord])
        (by rw [h0, wordVal_zeroWord]))
    show getBitOfWord R 31 = getBitOfWord a 31
    have hta : getBitOfWord a 31 = testLtWord a := rfl
    rw [hta]
    cases hx : testLtWord a
    · have hRv1 : wordVal R = A % B := by rw [hRv, if_neg (by simp [hx])]
      have hlt31 : wordVal R < 2 ^ 31 := by omega
      exact (getBit31_false_iff R hRl).2 hlt31
    · have hRv1 : wordVal R = (2 ^ 32 - A % B) % 2 ^ 32 := by rw [hRv, if_pos hx]
      have hrne : A % B ≠ 0 := by
        intro h0
        apply hRzv
        rw [hRv1, h0]
        omega
      have hge : 2 ^ 31 ≤ wordVal R := by
        rw [hRv1]
        generalize hrr : A % B = r at hr hrne
        omega
      exact (getBit31_iff R hRl).2 hge

/-- C1 counterexample: at a = 1 and b = -2 (pattern 2^32 - 2, non-zero), the
quotient of `div2Word` is the zero word with sign bit 0, while the XOR of the
operand sign bits is 1 - so the claimed sign-bit equation fails as stated. -/
theorem div2Word_sign_counterexample :
    testEqWord (wordOfNat (2 ^ 32 - 2)) = false ∧
    (div2Word (wordOfNat 1) (wordOfNat (2 ^ 32 - 2))).1 = zeroWord ∧
    Bool.xor (getBitOfWord (wordOfNat 1) 31) (getBitOfWord (wordOfNat (2 ^ 32 - 2)) 31)
      = true ∧
    getBitOfWord (div2Word (wordOfNat 1) (wordOfNat (2 ^ 32 - 2))).1 31 = false := by
  decide

/-- C1 witness at a = 7, b = 2 (quotient 3, remainder 1). -/
theorem div2Word_reconstruction_witness :
    addWord (mulWord (div2Word (wordOfNat 7) (wordOfNat 2)).1 (wordOfNat 2))
        (div2Word (wordOfNat 7) (wordOfNat 2)).2 = wordOfNat 7 ∧
    getBitOfWord (div2Word (wordOfNat 7) (wordOfNat 2)).1 31
        = Bool.xor (getBitOfWord (wordOfNat 7) 31) (getBitOfWord (wordOfNat 2) 31) ∧
    getBitOfWord (div2Word (wordOfNat 7) (wordOfNat 2)).2 31
        = getBitOfWord (wordOfNat 7) 31 :=
  ⟨(div2Word_reconstruction (wordOfNat 7) (wordOfNat 2) (by decide) (by decide) (by decide)).1,
   (div2Word_reconstruction (wordOfNat 7) (wordOfNat 2) (by decide) (by decide)
      (by decide)).2.1 (by decide) (by decide),
   (div2Word_reconstruction (wordOfNat 7) (wordOfNat 2) (by decide) (by decide)
      (by decide)).2.2 (by decide)⟩

/-! ### Arithmetic shift as multiplication and division by powers of two -/

theorem ashWord_nonneg_def (op : word) (count : Int) (h0 : 0 ≤ count)
    (h31 : count.natAbs ≤ 31) :
    ashWord op count = List.replicate count.natAbs false
      ++ op.take (31 - count.natAbs) ++ [getBitOfWord op 31] := by
  simp only [ashWord, wordsize, wordtopbit]
  rw [if_neg (by omega : ¬ (32 ≤ count.natAbs)), if_neg (by omega : ¬ count < 0)]

theorem ashWord_neg_def (op : word) (count : Int) (h0 : count < 0)
    (h31 : count.natAbs ≤ 31) :
    ashWord op count = (op.drop count.natAbs).take (31 - count.natAbs)
      ++ List.replicate count.natAbs (getBitOfWord op 31) ++ [getBitOfWord op 31] := by
  simp only [ashWord, wordsize, wordtopbit]
  rw [if_neg (by omega : ¬ (32 ≤ count.natAbs)), if_pos h0]

theorem top_bit_div (w : word) (hw : w.length = 32) :
    wordVal w / 2 ^ 31 = cond (getBitOfWord w 31) 1 0 := by
  have hlt := hw ▸ wordVal_lt w
  have hN : (2 : Nat) ^ 32 = 4294967296 := by norm_num
  have hN31 : (2 : Nat) ^ 31 = 2147483648 := by norm_num
  cases hb : getBitOfWord w 31
  · have := (getBit31_false_iff w hw).1 hb
    simp only [cond]
    omega
  · have := (getBit31_iff w hw).1 hb
    simp only [cond]
    omega

theorem wordVal_three (p q : word) (x : Bool) :
    wordVal (p ++ q ++ [x]) = wordVal p + 2 ^ p.length * wordVal q
      + 2 ^ (p.length + q.length) * cond x 1 0 := by
  rw [wordVal_append, wordVal_append, List.length_append]
  simp only [wordVal, Nat.mul_zero, Nat.add_zero, pow_add]

theorem length_three (p q : word) (x : Bool) :
    (p ++ q ++ [x]).length = p.length + q.length + 1 := by
  simp
  omega

theorem toInt_of_bit_false (w : word) (hb : getBitOfWord w 31 = false) :
    toInt w = (wordVal w : Int) := by
  unfold toInt
  rw [hb]
  simp

theorem toInt_of_bit_true (w : word) (hb : getBitOfWord w 31 = true) :
    toInt w = (wordVal w : Int) - 2 ^ 32 := by
  unfold toInt
  rw [hb]
  simp

theorem ash_left_core (w : word) (hw : w.length = 32) (c : Nat) (hc : c ≤ 31)
    (hlo : -(2 ^ 31) ≤ toInt w * 2 ^ c) (hhi : toInt w * 2 ^ c < 2 ^ 31) :
    toInt (List.replicate c false ++ w.take (31 - c) ++ [getBitOfWord w 31])
      = toInt w * 2 ^ c := by
  have hvlt : wordVal w < 2 ^ 32 := hw ▸ wordVal_lt w
  have hM : (2 : Nat) ^ c * 2 ^ (31 - c) = 2 ^ 31 := by
    rw [← pow_add]
    congr 1
    omega
  have hlen_take : (w.take (31 - c)).length = 31 - c := by
    rw [List.length_take, hw]
    omega
  have hlenr : (List.replicate c false ++ w.take (31 - c) ++ [getBitOfWord w 31]).length
      = 32 := by
    rw [length_three, List.length_replicate, hlen_take]
    omega
  have hval : wordVal (List.replicate c false ++ w.take (31 - c) ++ [getBitOfWord w 31])
      = 2 ^ c * (wordVal w % 2 ^ (31 - c))
        + 2 ^ 31 * cond (getBitOfWord w 31) 1 0 := by
    rw [wordVal_three, wordVal_replicate_false, wordVal_take, List.length_replicate,
      hlen_take]
    have h31 : c + (31 - c) = 31 := by omega
    rw [h31]
    ring
  have hmlt : 2 ^ c * (wordVal w % 2 ^ (31 - c)) < 2 ^ 31 := by
    have h1 : wordVal w % 2 ^ (31 - c) < 2 ^ (31 - c) := Nat.mod_lt _ (Nat.two_pow_pos _)
    calc 2 ^ c * (wordVal w % 2 ^ (31 - c))
        < 2 ^ c * 2 ^ (31 - c) := mul_lt_mul_of_pos_left h1 (Nat.two_pow_pos c)
      _ = 2 ^ 31 := hM
  cases hb : getBitOfWord w 31
  · -- non-negative operand: no sign extension needed, plain shift
    rw [hb] at hval hlenr
    simp only [Bool.cond_false, Nat.mul_zero, Nat.add_zero] at hval
    have hti : toInt w = (wordVal w : Int) := toInt_of_bit_false w hb
    have hhiN : wordVal w * 2 ^ c < 2 ^ 31 := by
      have h2 : (wordVal w : Int) * 2 ^ c < 2 ^ 31 := by rw [← hti]; exact hhi
      exact_mod_cast h2
    have hvM : wordVal w < 2 ^ (31 - c) := by
      by_contra hcon
      push_neg at hcon
      have h3 : 2 ^ (31 - c) * 2 ^ c ≤ wordVal w * 2 ^ c := Nat.mul_le_mul_right _ hcon
      rw [Nat.mul_comm (2 ^ (31 - c)) (2 ^ c), hM] at h3
      omega
    have hvr : wordVal (List.replicate c false ++ w.take (31 - c) ++ [false])
        = 2 ^ c * wordVal w := by
      rw [hval, Nat.mod_eq_of_lt hvM]
    have hbr : getBitOfWord
        (List.replicate c false ++ w.take (31 - c) ++ [false]) 31 = false := by
      apply (getBit31_false_iff _ hlenr).2
      rw [hvr]
      rw [Nat.mod_eq_of_lt hvM] at hmlt
      exact hmlt
    rw [toInt_of_bit_false _ hbr, hvr, hti]
    push_cast
    ring
  · -- negative operand: representability pins the discarded high bits
    rw [hb] at hval hlenr
    simp only [Bool.cond_true, Nat.mul_one] at hval
    have hv31 : 2 ^ 31 ≤ wordVal w := (getBit31_iff w hw).1 hb
    have hti : toInt w = (wordVal w : Int) - 2 ^ 32 := toInt_of_bit_true w hb
    have hvge : 2 ^ 32 - 2 ^ (31 - c) ≤ wordVal w := by
      have hlo2 : -(2 ^ 31 : Int) ≤ ((wordVal w : Int) - 2 ^ 32) * 2 ^ c := by
        rw [← hti]
        exact hlo
      have h1 : ((2 ^ 32 : Int) - wordVal w) * 2 ^ c ≤ 2 ^ 31 := by nlinarith [hlo2]
      have h2 : ((2 ^ 32 - wordVal w : Nat) : Int) * 2 ^ c ≤ 2 ^ 31 := by
        have he : ((2 ^ 32 - wordVal w : Nat) : Int) = (2 ^ 32 : Int) - wordVal w := by
          omega
        rw [he]
        exact h1
      have h3 : (2 ^ 32 - wordVal w) * 2 ^ c ≤ 2 ^ 31 := by exact_mod_cast h2
      by_contra hcon
      push_neg at hcon
      have h4 : 2 ^ (31 - c) * 2 ^ c < (2 ^ 32 - wordVal w) * 2 ^ c :=
        Nat.mul_lt_mul_of_pos_right (by omega) (Nat.two_pow_pos c)
      rw [Nat.mul_comm (2 ^ (31 - c)) (2 ^ c), hM] at h4
      omega
    have hMdvd : 2 ^ 32 - 2 ^ (31 - c) = 2 ^ (31 - c) * (2 ^ (c + 1) - 1) := by
      have hM32 : (2 : Nat) ^ (31 - c) * 2 ^ (c + 1) = 2 ^ 32 := by
        rw [← pow_add]
        congr 1
        omega
      rw [Nat.mul_sub, Nat.mul_one, hM32]
    have hmodv : wordVal w % 2 ^ (31 - c) = wordVal w - (2 ^ 32 - 2 ^ (31 - c)) := by
      have hMp : 0 < (2 : Nat) ^ (31 - c) := Nat.two_pow_pos _
      have hN : (2 : Nat) ^ 32 = 4294967296 := by norm_num
      have hN31 : (2 : Nat) ^ 31 = 2147483648 := by norm_num
      have hMle : (2 : Nat) ^ (31 - c) ≤ 2 ^ 31 :=
        Nat.pow_le_pow_right (by norm_num) (by omega)
      have hdlt : wordVal w - (2 ^ 32 - 2 ^ (31 - c)) < 2 ^ (31 - c) := by omega
      have hsplit : wordVal w
          = 2 ^ (31 - c) * (2 ^ (c + 1) - 1) + (wordVal w - (2 ^ 32 - 2 ^ (31 - c))) := by
        rw [← hMdvd]
        omega
      calc wordVal w % 2 ^ (31 - c)
          = (2 ^ (31 - c) * (2 ^ (c + 1) - 1)
              + (wordVal w - (2 ^ 32 - 2 ^ (31 - c)))) % 2 ^ (31 - c) := by rw [← hsplit]
        _ = ((wordVal w - (2 ^ 32 - 2 ^ (31 - c)))
              + 2 ^ (31 - c) * (2 ^ (c + 1) - 1)) % 2 ^ (31 - c) := by ring_nf
        _ = (wordVal w - (2 ^ 32 - 2 ^ (31 - c))) % 2 ^ (31 - c) :=
            Nat.add_mul_mod_self_left _ _ _
        _ = wordVal w - (2 ^ 32 - 2 ^ (31 - c)) := Nat.mod_eq_of_lt hdlt
    have hvr : wordVal (List.replicate c false ++ w.take (31 - c) ++ [true])
        = 2 ^ c * (wordVal w - (2 ^ 32 - 2 ^ (31 - c))) + 2 ^ 31 := by
      rw [hval, hmodv]
    have hbr : getBitOfWord
        (List.replicate c false ++ w.take (31 - c) ++ [true]) 31 = true := by
      apply (getBit31_iff _ hlenr).2
      rw [hvr]
      exact Nat.le_add_left _ _
    have hs1 : (2 : Nat) ^ (31 - c) ≤ 2 ^ 32 :=
      Nat.pow_le_pow_right (by norm_num) (by omega)
    have h1 : (((2 : Nat) ^ (31 - c) : Nat) : Int) = (2 : Int) ^ (31 - c) := by
      push_cast
      rfl
    obtain ⟨d, hd⟩ : ∃ d : Nat, wordVal w = (2 ^ 32 - 2 ^ (31 - c)) + d :=
      ⟨wordVal w - (2 ^ 32 - 2 ^ (31 - c)), by omega⟩
    have hd1 : wordVal w - (2 ^ 32 - 2 ^ (31 - c)) = d := by omega
    have hvrd : wordVal (List.replicate c false ++ w.take (31 - c) ++ [true])
        = 2 ^ c * d + 2 ^ 31 := by
      rw [hvr, hd1]
    have hvInt : (wordVal w : Int) = 2 ^ 32 - 2 ^ (31 - c) + d := by
      have : ((2 ^ 32 - 2 ^ (31 - c) : Nat) : Int) = 2 ^ 32 - (2 : Int) ^ (31 - c) := by
        omega
      rw [hd]
      push_cast [this]
      omega
    have hMi : (2 : Int) ^ c * 2 ^ (31 - c) = 2 ^ 31 := by exact_mod_cast hM
    rw [toInt_of_bit_true _ hbr, hvrd, hti, hvInt]
    push_cast
    linear_combination hMi

theorem ash_right_core (w : word) (hw : w.length = 32) (c : Nat) (hc1 : 1 ≤ c)
    (hc : c ≤ 31) :
    toInt ((w.drop c).take (31 - c)
        ++ List.replicate c (getBitOfWord w 31) ++ [getBitOfWord w 31])
      = Int.fdiv (toInt w) (2 ^ c) := by
  have hvlt : wordVal w < 2 ^ 32 := hw ▸ wordVal_lt w
  have hM : (2 : Nat) ^ c * 2 ^ (31 - c) = 2 ^ 31 := by
    rw [← pow_add]
    congr 1
    omega
  have hMpos : 0 < (2 : Nat) ^ (31 - c) := Nat.two_pow_pos _
  have hlen_take : ((w.drop c).take (31 - c)).length = 31 - c := by
    rw [List.length_take, List.length_drop, hw]
    omega
  have hlenr : ((w.drop c).take (31 - c)
      ++ List.replicate c (getBitOfWord w 31) ++ [getBitOfWord w 31]).length = 32 := by
    rw [length_three, List.length_replicate, hlen_take]
    omega
  have htop : wordVal w / 2 ^ c / 2 ^ (31 - c) = cond (getBitOfWord w 31) 1 0 := by
    rw [Nat.div_div_eq_div_mul, hM]
    exact top_bit_div w hw
  have hdm := Nat.div_add_mod (wordVal w / 2 ^ c) (2 ^ (31 - c))
  have hval : wordVal ((w.drop c).take (31 - c)
      ++ List.replicate c (getBitOfWord w 31) ++ [getBitOfWord w 31])
      = (wordVal w / 2 ^ c) % 2 ^ (31 - c)
        + 2 ^ (31 - c) * (wordVal (List.replicate c (getBitOfWord w 31))
            + 2 ^ c * cond (getBitOfWord w 31) 1 0) := by
    rw [wordVal_three, wordVal_take, wordVal_drop, hlen_take, List.length_replicate]
    rw [pow_add]
    ring
  have hdivlt : wordVal w / 2 ^ c < 2 ^ (32 - c) := by
    apply Nat.div_lt_of_lt_mul
    rw [← pow_add]
    have he : c + (32 - c) = 32 := by omega
    rw [he]
    exact hvlt
  have h2c : 2 ≤ (2 : Nat) ^ c := by
    calc (2 : Nat) = 2 ^ 1 := by norm_num
      _ ≤ 2 ^ c := Nat.pow_le_pow_right (by norm_num) hc1
  have h2M : 2 * 2 ^ (31 - c) ≤ 2 ^ 31 := by
    calc 2 * 2 ^ (31 - c) ≤ 2 ^ c * 2 ^ (31 - c) := Nat.mul_le_mul_right _ h2c
      _ = 2 ^ 31 := hM
  cases hb : getBitOfWord w 31
  · -- non-negative: plain logical shift, value v / 2^c
    rw [hb] at htop hval hlenr
    simp only [Bool.cond_false, Nat.mul_zero, Nat.add_zero, wordVal_replicate_false]
      at htop hval
    rw [htop, Nat.mul_zero] at hdm
    have hmod : (wordVal w / 2 ^ c) % 2 ^ (31 - c) = wordVal w / 2 ^ c := by omega
    have hvr : wordVal ((w.drop c).take (31 - c)
        ++ List.replicate c false ++ [false]) = wordVal w / 2 ^ c := by
      rw [hval, hmod]
    have hbr : getBitOfWord
        ((w.drop c).take (31 - c) ++ List.replicate c false ++ [false]) 31 = false := by
      apply (getBit31_false_iff _ hlenr).2
      rw [hvr]
      have h32c : (2 : Nat) ^ (32 - c) ≤ 2 ^ 31 :=
        Nat.pow_le_pow_right (by norm_num) (by omega)
      omega
    rw [toInt_of_bit_false _ hbr, hvr, toInt_of_bit_false w hb,
      Int.fdiv_eq_ediv _ (by positivity)]
    push_cast
    ring_nf
  · -- negative: sign extension
    rw [hb] at htop hval hlenr
    simp only [Bool.cond_true, Nat.mul_one, wordVal_replicate_true] at htop hval
    rw [htop, Nat.mul_one] at hdm
    have hmod : (wordVal w / 2 ^ c) % 2 ^ (31 - c)
        = wordVal w / 2 ^ c - 2 ^ (31 - c) := by omega
    have hone : 1 ≤ (2 : Nat) ^ c := Nat.one_le_two_pow
    have hS : 2 ^ (31 - c) * (2 ^ c - 1 + 2 ^ c) = 2 ^ 32 - 2 ^ (31 - c) := by
      have h1 : (2 : Nat) ^ c - 1 + 2 ^ c = 2 ^ (c + 1) - 1 := by
        have hp : (2 : Nat) ^ (c + 1) = 2 ^ c * 2 := pow_succ 2 c
        omega
      have hM32 : (2 : Nat) ^ (31 - c) * 2 ^ (c + 1) = 2 ^ 32 := by
        rw [← pow_add]
        congr 1
        omega
      rw [h1, Nat.mul_sub, Nat.mul_one, hM32]
    have hvr : wordVal ((w.drop c).take (31 - c)
        ++ List.replicate c true ++ [true])
        = wordVal w / 2 ^ c - 2 ^ (31 - c) + (2 ^ 32 - 2 ^ (31 - c)) := by
      rw [hval, hmod, hS]
    have hMdiv : 2 ^ (31 - c) ≤ wordVal w / 2 ^ c := by omega
    have hbr : getBitOfWord
        ((w.drop c).take (31 - c) ++ List.replicate c true ++ [true]) 31 = true := by
      apply (getBit31_iff _ hlenr).2
      rw [hvr]
      omega
    have hs1 : (2 : Nat) ^ (31 - c) ≤ 2 ^ 32 :=
      Nat.pow_le_pow_right (by norm_num) (by omega)
    have h1 : (((2 : Nat) ^ (31 - c) : Nat) : Int) = (2 : Int) ^ (31 - c) := by
      push_cast
      rfl
    obtain ⟨d, hd⟩ : ∃ d : Nat, wordVal w / 2 ^ c = 2 ^ (31 - c) + d :=
      ⟨wordVal w / 2 ^ c - 2 ^ (31 - c), by omega⟩
    have hvrd : wordVal ((w.drop c).take (31 - c) ++ List.replicate c true ++ [true])
        = d + (2 ^ 32 - 2 ^ (31 - c)) := by
      rw [hvr]
      omega
    have hVInt : ((wordVal w / 2 ^ c : Nat) : Int) = (2 : Int) ^ (31 - c) + d := by
      rw [hd]
      push_cast
      omega
    have hdInt : ((d + (2 ^ 32 - 2 ^ (31 - c)) : Nat) : Int)
        = (d : Int) + 2 ^ 32 - (2 : Int) ^ (31 - c) := by
      omega
    have hsplit : (wordVal w : Int) - 2 ^ 32
        = (wordVal w : Int) + (-(2 * ((2 : Int) ^ (31 - c)))) * 2 ^ c := by
      have hMi : (2 : Int) ^ c * 2 ^ (31 - c) = 2 ^ 31 := by exact_mod_cast hM
      nlinarith [hMi]
    have h2cc : (2 : Int) ^ c = ((2 ^ c : Nat) : Int) := by
      push_cast
      rfl
    rw [toInt_of_bit_true _ hbr, hvrd, toInt_of_bit_true w hb,
      Int.fdiv_eq_ediv _ (by positivity), hsplit,
      Int.add_mul_ediv_right _ _ ((by positivity : (0 : Int) < 2 ^ c).ne'), hdInt,
      h2cc, ← Int.ofNat_ediv, hVInt]
    ring

theorem ashWord_left (w : word) (hw : w.length = 32) (count : Int) (hpos : 0 ≤ count)
    (hc : count.natAbs ≤ 31)
    (hlo : -(2 ^ 31) ≤ toInt w * 2 ^ count.natAbs)
    (hhi : toInt w * 2 ^ count.natAbs < 2 ^ 31) :
    toInt (ashWord w count) = toInt w * 2 ^ count.natAbs := by
  rw [ashWord_nonneg_def w count hpos hc]
  exact ash_left_core w hw count.natAbs hc hlo hhi

theorem ashWord_right (w : word) (hw : w.length = 32) (count : Int) (hneg : count < 0)
    (hc : count.natAbs ≤ 31) :
    toInt (ashWord w count) = Int.fdiv (toInt w) (2 ^ count.natAbs) := by
  rw [ashWord_neg_def w count hneg hc]
  exact ash_right_core w hw count.natAbs (by omega) hc

/-- C7 (amended): for every 32-bit word w and count with |count| at most the
clamp limit 31, ashWord with non-negative count equals signed multiplication
by 2^count whenever that product is representable in 32-bit two's complement
(without this proviso the sign-forcing makes the claim false, see the
counterexample), and ashWord with negative count equals division by
2^|count| rounded toward negative infinity (floor division). -/
theorem ashWord_mul_div (w : word) (hw : w.length = 32) (count : Int)
    (hc : count.natAbs ≤ 31) :
    (0 ≤ count → -(2 ^ 31) ≤ toInt w * 2 ^ count.natAbs →
      toInt w * 2 ^ count.natAbs < 2 ^ 31 →
      toInt (ashWord w count) = toInt w * 2 ^ count.natAbs) ∧
    (count < 0 → toInt (ashWord w count) = Int.fdiv (toInt w) (2 ^ count.natAbs)) :=
  ⟨fun h1 h2 h3 => ashWord_left w hw count h1 hc h2 h3,
   fun h1 => ashWord_right w hw count h1 hc⟩

/-- C7 counterexample: for w = 2^30 (positive) and count = 1, the claimed
equivalence with signed multiplication fails: ashWord gives 0 while
2^30 * 2^1 = 2^31 (and even the wrapped two's-complement product, -2^31,
is not 0). -/
theorem ashWord_counterexample :
    toInt (ashWord (wordOfNat (2 ^ 30)) 1) = 0 ∧
    toInt (wordOfNat (2 ^ 30)) * 2 ^ 1 = 2 ^ 31 ∧
    ((2 : Int) ^ 31) ≠ 0 ∧ (-((2 : Int) ^ 31)) ≠ 0 := by decide

/-- C7 witness at w = 5, count = 2 (left) and w = -3, count = -1 (right). -/
theorem ashWord_mul_div_witness :
    toInt (ashWord (wordOfNat 5) 2) = toInt (wordOfNat 5) * 2 ^ (2 : Int).natAbs ∧
    toInt (ashWord (wordOfNat (2 ^ 32 - 3)) (-1))
      = Int.fdiv (toInt (wordOfNat (2 ^ 32 - 3))) (2 ^ (-1 : Int).natAbs) :=
  ⟨(ashWord_mul_div (wordOfNat 5) (by decide) 2 (by decide)).1 (by decide) (by decide)
      (by decide),
   (ashWord_mul_div (wordOfNat (2 ^ 32 - 3)) (by decide) (-1) (by decide)).2 (by decide)⟩

/-! ### Aliased execution of div2Word, and the cshWord access trace -/

/-- Execution of C `div2Word` when the caller passes the op2 buffer as the
remainder buffer (aliasing permitted by the spec's calling convention): each
access the source makes to `op2` or to `remainder` goes through one shared
buffer, threaded explicitly. The opening `setWord(remainder, zeroWord)`
therefore zeroes op2 before `testEqWord(op2)` is consulted, so the
divide-by-zero path is always taken. The else branch (unreachable, since the
shared buffer is zero at the test) is kept for faithfulness; `w1` and `w2`
are separate local buffers in the source, so only the reads of `op2` go
through the shared buffer there. -/
def div2WordRemAliasOp2 (op1 op2 : word) : word × word :=
  let shared := op2
  let result := zeroWord
  let shared := zeroWord
  if testEqWord shared then
    ((if testGeWord op1 then maxWord else minWord), shared)
  else
    let w1 := if testLtWord op1 then negativeWord op1 else op1
    let w2 := if testLtWord shared then negativeWord shared else shared
    let resultNegative := Bool.xor (testLtWord op1) (testLtWord shared)
    let s := divGo w1 w2 wordsize (result, shared)
    let result := if resultNegative then negativeWord s.1 else s.1
    let remainder := if testLtWord op1 then negativeWord s.2 else s.2
    (result, remainder)

/-- C2: the source of `div2Word` zeroes the caller's result and remainder
buffers before reading `op1`/`op2`, with no snapshot; with the remainder
buffer aliased to op2 the call takes the divide-by-zero path and returns
quotient maxWord for 6 / 2, where the unaliased call returns 3 — the
aliasing guarantee of the calling convention is violated. -/
theorem div2Word_alias_bug :
    div2WordRemAliasOp2 (wordOfNat 6) (wordOfNat 2) = (maxWord, zeroWord) ∧
    div2Word (wordOfNat 6) (wordOfNat 2) = (wordOfNat 3, zeroWord) ∧
    maxWord ≠ wordOfNat 3 := by decide

/-- C4: `cshWord` does not invert under count negation: the source consults
only `abs(count)` (so -1 rotates the same direction as +1), and for
0 < c < 16 its loops leave result indices [c, 2c-1] unwritten. Shifting the
all-ones word by +1 and the result by -1 returns the all-ones word with bits
1 and 2 stuck at the stale result-buffer contents (zero), value 2^32 - 7,
not the original word - contradicting both the claimed inversion and the
rotation examples in the function's own documentation. -/
theorem cshWord_roundtrip_failure :
    cshWord zeroWord (cshWord zeroWord (wordOfNat (2 ^ 32 - 1)) 1) (-1)
        = wordOfNat (2 ^ 32 - 7) ∧
    wordOfNat (2 ^ 32 - 7) ≠ wordOfNat (2 ^ 32 - 1) ∧
    cshWord zeroWord (wordOfNat (2 ^ 32 - 1)) (-1)
        = cshWord zeroWord (wordOfNat (2 ^ 32 - 1)) 1 := by decide

/-- The sequence of bit indices read from `localop` and written to `result`
by the two shifting loops of C `cshWord`, mirroring the source's loop bounds
and index expressions (each loop contributes its read indices and then its
write indices; the `setWord` whole-word copies are the collaborator's
full-width operation, not indexed bit accesses). -/
def cshAccess (count : Int) : List Int :=
  let c0 : Int := count.natAbs
  let c := if c0 > 32 then c0 - 32 else c0
  let wtb : Int := wordtopbit
  if c < (wordsize : Int) / 2 then
    (intsDown wtb (wtb - c + 1))
      ++ (intsDown wtb (wtb - c + 1)).map (fun b => b % (32 - c))
      ++ (intsDown (wtb - c) c)
      ++ (intsDown (wtb - c) c).map (fun p => (p % (32 - c)) + c)
  else
    (intsDown wtb (wtb - c + 1))
      ++ (intsDown wtb (wtb - c + 1)).map (fun b => b - (32 - c))
      ++ (intsDown (wtb - c) 0)
      ++ (intsDown (wtb - c) 0).map (fun p => (p % c) + c)

/-- C5: for count = 65 the adjusted shift amount in `cshWord` is 33 (the
`c - 32` adjustment runs once, not modulo), and the first shifting loop
reads bit index -1 of the operand and writes bit index 32 of the result -
both outside [0, topIndex], so shift counts are not always clamped into
range. -/
theorem cshWord_oob_access :
    (-1 : Int) ∈ cshAccess 65 ∧ (32 : Int) ∈ cshAccess 65 ∧
    ¬ (0 ≤ (-1 : Int)) ∧ ¬ ((32 : Int) ≤ 31) := by decide

example : wordVal (wordOfNat 7) = 7 := by decide
example : wordVal (addWord (wordOfNat 6) (wordOfNat 7)) = 13 := by decide
example : toInt minWord = -(2 ^ 31) := by decide
example : toInt maxWord = 2 ^ 31 - 1 := by decide
example : negativeWord (wordOfNat 3) = wordOfNat (2 ^ 32 - 3) := by decide
example : mulWord (wordOfNat 3) (wordOfNat 5) = wordOfNat 15 := by decide
example : div2Word (wordOfNat 7) (wordOfNat 2) = (wordOfNat 3, wordOfNat 1) := by decide
